import Mathlib

/-!
Verification of the core array engine of the uiua repository
(`src/shape.rs`, `src/algorithm/monadic.rs`).

The Rust code is shallowly embedded: `Shape` becomes `MShape` (a list of
dimension sizes plus a parallel list of per-dimension markers), typed arrays
become `UArray` (a size list plus a flat data list), and each structural
algorithm is translated into a pure Lean function.  Fallible operations
return `Option`/`Except`; a Rust panic (for example an out-of-range
`slice::rotate_left`) is modelled as `none`.
-/

namespace UiuaSpec

/-- The empty-marker sentinel `EMPTY_MARKER: Marker = '\0'` from `shape.rs`. -/
def emptyMarker : Char := Char.ofNat 0

/-- Embedding of `Shape` from `shape.rs`: an ordered list of dimension
sizes together with a parallel list of per-dimension markers. -/
structure MShape where
  sizes : List Nat
  markers : List Char
deriving DecidableEq, Repr

/-- A dimension: size and marker, as in `shape.rs` (`Dimension`). -/
structure MDimension where
  size : Nat
  marker : Char
deriving DecidableEq, Repr

namespace MShape

/-- `Shape::rank`: the number of dimensions. -/
def rank (s : MShape) : Nat := s.sizes.length

/-- `Shape::push`: append a trailing dimension.  The marker list gains an
entry exactly when the new marker is non-empty or markers are already
present. -/
def push (s : MShape) (d : MDimension) : MShape :=
  { sizes := s.sizes ++ [d.size]
    markers :=
      if d.marker ≠ emptyMarker then s.markers ++ [d.marker]
      else if s.markers ≠ [] then s.markers ++ [emptyMarker]
      else s.markers }

/-- `Shape::pop`: remove the last dimension, popping a marker only when
markers are present. -/
def pop (s : MShape) : Option (MDimension × MShape) :=
  match s.sizes.getLast? with
  | none => none
  | some size =>
    if s.markers = [] then
      some (⟨size, emptyMarker⟩, ⟨s.sizes.dropLast, s.markers⟩)
    else
      match s.markers.getLast? with
      | none => none
      | some m => some (⟨size, m⟩, ⟨s.sizes.dropLast, s.markers.dropLast⟩)

/-- `Shape::insert`: insert a dimension at an index (the Rust code panics
on an out-of-range index; `List.insertIdx` is a no-op there instead, and
the theorems only quantify over in-range indices). -/
def insert (s : MShape) (index : Nat) (d : MDimension) : MShape :=
  { sizes := s.sizes.insertIdx index d.size
    markers :=
      if d.marker ≠ emptyMarker then s.markers.insertIdx index d.marker
      else if s.markers ≠ [] then s.markers.insertIdx index emptyMarker
      else s.markers }

/-- `Shape::remove`: remove the dimension at an index (in-range per the
spec's caller-validated-index policy). -/
def remove (s : MShape) (index : Nat) : MDimension × MShape :=
  (⟨s.sizes.getD index 0,
    if s.markers = [] then emptyMarker else s.markers.getD index emptyMarker⟩,
   ⟨s.sizes.eraseIdx index,
    if s.markers = [] then [] else s.markers.eraseIdx index⟩)

/-- `Shape::drain(a..b)`: remove the size entries in the half-open range.
The Rust code drains `self.sizes` only; the marker list is not touched. -/
def drain (s : MShape) (a b : Nat) : MShape :=
  { sizes := s.sizes.take a ++ s.sizes.drop b
    markers := s.markers }

/-- `Shape::split_off(at)`: keep the first `at` dimensions, returning the
tail as a new shape; markers split at `at.min(markers.len())`. -/
def splitOff (s : MShape) (at_ : Nat) : MShape × MShape :=
  (⟨s.sizes.take at_, s.markers.take (min at_ s.markers.length)⟩,
   ⟨s.sizes.drop at_, s.markers.drop (min at_ s.markers.length)⟩)

/-- Left rotation of a list by `n` (Rust `slice::rotate_left` semantics for
`n ≤ length`; the Rust call panics for larger `n`). -/
def rotL (n : Nat) (l : List α) : List α := l.drop n ++ l.take n

/-- Right rotation of a list by `n` (Rust `slice::rotate_right` semantics
for `n ≤ length`). -/
def rotR (n : Nat) (l : List α) : List α := rotL (l.length - n) l

/-- `Shape::rotate_left`: rotate sizes and (when present) markers. -/
def rotateLeft (s : MShape) (n : Nat) : MShape :=
  { sizes := rotL n s.sizes
    markers := if s.markers = [] then s.markers else rotL n s.markers }

/-- `Shape::rotate_right`. -/
def rotateRight (s : MShape) (n : Nat) : MShape :=
  { sizes := rotR n s.sizes
    markers := if s.markers = [] then s.markers else rotR n s.markers }

/-- `Shape::rotate_left_at(a..b, n)`: rotate the sub-range `[a, b)` of the
sizes, and of the markers when present. -/
def rotateLeftAt (s : MShape) (a b n : Nat) : MShape :=
  { sizes := s.sizes.take a ++ rotL n ((s.sizes.take b).drop a) ++ s.sizes.drop b
    markers :=
      if s.markers = [] then s.markers
      else s.markers.take a ++ rotL n ((s.markers.take b).drop a) ++ s.markers.drop b }

/-- `Shape::rotate_right_at(a..b, n)`. -/
def rotateRightAt (s : MShape) (a b n : Nat) : MShape :=
  { sizes := s.sizes.take a ++ rotR n ((s.sizes.take b).drop a) ++ s.sizes.drop b
    markers :=
      if s.markers = [] then s.markers
      else s.markers.take a ++ rotR n ((s.markers.take b).drop a) ++ s.markers.drop b }

/-- The marker invariant from the spec: the marker list, if present
(non-empty), has exactly one entry per dimension. -/
def Lockstep (s : MShape) : Prop :=
  s.markers = [] ∨ s.markers.length = s.sizes.length

instance (s : MShape) : Decidable s.Lockstep := by
  unfold Lockstep; infer_instance

/-- Derived `PartialEq` on `Shape`: structural equality of all fields
(sizes and markers). -/
def beqShape (s t : MShape) : Bool := s.sizes == t.sizes && s.markers == t.markers

/-- `impl PartialEq<[usize]> for Shape`: comparison against a bare size
list compares sizes only. -/
def beqSlice (s : MShape) (l : List Nat) : Bool := s.sizes == l

/-- Lexicographic comparison of two lists by an element comparison, as in
Rust's derived `Ord` for `Vec`/slices (shorter prefix orders first). -/
def cmpList (cmp : α → α → Ordering) : List α → List α → Ordering
  | [], [] => .eq
  | [], _ :: _ => .lt
  | _ :: _, [] => .gt
  | a :: as_, b :: bs => match cmp a b with
    | .eq => cmpList cmp as_ bs
    | o => o

/-- Derived `Ord` on `Shape`: compare the size lists lexicographically,
then the marker lists. -/
def cmpShape (s t : MShape) : Ordering :=
  match cmpList compare s.sizes t.sizes with
  | .eq => cmpList compare s.markers t.markers
  | o => o

end MShape

/-- Embedding of `Array<T>` from the repository: a shape (size list) plus a
flat data buffer.  Modelled from the spec: `array.rs` itself is not under
`src/`, but the spec fixes the data model as "shape + flat copy-on-write
data buffer" with buffer length equal to the product of the sizes.  The
marker metadata of `Shape` plays no role in the array algorithms verified
below, so the shape is carried as its size list. -/
structure UArray (T : Type) where
  shape : List Nat
  data : List T
deriving DecidableEq, Repr

namespace UArray

/-- Rank = number of dimensions. -/
def rank (a : UArray T) : Nat := a.shape.length

/-- Modelled from the spec: the element count is the product of all sizes
(product of the empty sequence = 1). -/
def elementCount (a : UArray T) : Nat := a.shape.prod

/-- Modelled from the spec: a row is a contiguous sub-slice of length
`element count / first-dimension size`, i.e. the product of all but the
leading dimension. -/
def rowLen (a : UArray T) : Nat := (a.shape.drop 1).prod

/-- Modelled from the spec: the number of rows is the leading dimension
(1 for a scalar). -/
def rowCount (a : UArray T) : Nat := a.shape.headD 1

/-- Modelled from the spec: the `i`-th row as a contiguous slice of the
flat buffer. -/
def rowSlice (a : UArray T) (i : Nat) : List T :=
  (a.data.drop (i * a.rowLen)).take a.rowLen

/-- Validity invariant: buffer length equals the product of the sizes. -/
def Valid (a : UArray T) : Prop := a.data.length = a.shape.prod

instance (a : UArray T) : Decidable a.Valid := by
  unfold Valid; infer_instance

/-- `Array::deshape_depth` from `monadic.rs`: clamp `depth` to the rank,
split the shape off at `depth`, and push the product of the removed tail
as a single trailing dimension.  The data buffer is untouched. -/
def deshapeDepth (depth : Nat) (a : UArray T) : UArray T :=
  let d := min depth a.rank
  { a with shape := a.shape.take d ++ [(a.shape.drop d).prod] }

/-- An error from the execution context: a message plus the fill-failure
marker set by `.fill()` on the error (spec section 6). -/
structure UErr where
  msg : String
  isFill : Bool
deriving DecidableEq, Repr

/-- `Array::first` from `monadic.rs`.  The execution context's fill service
is modelled as an optional fill value. -/
def firstA (fill : Option T) (a : UArray T) : Except UErr (UArray T) :=
  match a.shape with
  | [] => .error ⟨"Cannot take first of a scalar", false⟩
  | 0 :: rest =>
    match fill with
    | some f => .ok ⟨rest, a.data ++ List.replicate a.rowLen f⟩
    | none => .error ⟨"Cannot take first of an empty array", true⟩
  | _ :: rest => .ok ⟨rest, a.data.take a.rowLen⟩

/-- `Array::last` from `monadic.rs`. -/
def lastA (fill : Option T) (a : UArray T) : Except UErr (UArray T) :=
  match a.shape with
  | [] => .error ⟨"Cannot take last of a scalar", false⟩
  | 0 :: rest =>
    match fill with
    | some f => .ok ⟨rest, a.data ++ List.replicate a.rowLen f⟩
    | none => .error ⟨"Cannot take last of an empty array", true⟩
  | _ :: rest => .ok ⟨rest, a.data.drop (a.data.length - a.rowLen)⟩

end UArray

/-- Apply `f` to `k` consecutive chunks of length `n` of `l`, leaving the
rest of the list unchanged.  With `k = l.length / n` this is Rust's
`chunks_exact_mut` pattern: every full chunk is rewritten, a remainder is
left in place. -/
def chunksGo (k n : Nat) (f : List T → List T) (l : List T) : List T :=
  match k with
  | 0 => l
  | k + 1 => f (l.take n) ++ chunksGo k n f (l.drop n)

/-- `chunks_exact_mut(n)` + per-chunk rewrite: apply `f` to every full
chunk of length `n`. -/
def chunksApply (n : Nat) (f : List T → List T) (l : List T) : List T :=
  chunksGo (l.length / n) n f l

/-- Split `l` into `k` consecutive chunks of length `len`. -/
def chunksN : Nat → Nat → List T → List (List T)
  | 0, _, _ => []
  | k + 1, len, l => l.take len :: chunksN k len (l.drop len)

namespace UArray

/-- `Array::reverse_depth` from `monadic.rs`: within each chunk of size
`prod shape[depth..]`, the mirror-index swap loop exchanges row block `i`
(of length `chunk_size / shape[depth]`) with row block `n - 1 - i`, which
rewrites the chunk as its list of `shape[depth]` row blocks in reverse
order. -/
def reverseDepth (depth : Nat) (a : UArray T) : UArray T :=
  let d := min depth a.rank
  let rowShape := a.shape.drop d
  if rowShape.isEmpty then a
  else
    let chunkSize := rowShape.prod
    if chunkSize = 0 then a
    else
      let n := a.shape.getD d 0
      let rowLen := chunkSize / n
      { a with data :=
          chunksApply chunkSize (fun c => (chunksN n rowLen c).reverse.flatten) a.data }

/-- The per-chunk data gather of `Array::transpose_depth`: the chunk is
rewritten as `temp[temp_chunk_i * subs + chunk_i] =
data[chunk_i * stride + temp_chunk_i]`, i.e. position `idx` reads
`data[(idx % subs) * stride + idx / subs]`. -/
def transposeFlat [Inhabited T] (subs stride : Nat) (c : List T) : List T :=
  (List.range c.length).map (fun idx => c.getD ((idx % subs) * stride + idx / subs) default)

/-- `Array::transpose_depth` from `monadic.rs`.  `none` models the panic of
`slice::rotate_left/right` when the rotation amount exceeds the length of
the rotated shape segment. -/
def transposeDepth [Inhabited T] (depth : Nat) (amnt : Int) (a : UArray T) : Option (UArray T) :=
  let d := min depth a.rank
  let count := amnt.natAbs
  if a.rank - d < 2 ∨ d + count = a.rank ∨ count = 0 then some a
  else
    let rem := a.shape.drop d
    if rem.length < count then none
    else
      let forward := 0 < amnt
      let newShape :=
        a.shape.take d ++ (if forward then MShape.rotL count rem else MShape.rotR count rem)
      if rem.contains 0 then some ⟨newShape, a.data⟩
      else
        let chunkLen := rem.prod
        let subs :=
          if forward then (rem.take count).prod else (rem.reverse.drop count).prod
        let stride := chunkLen / subs
        some ⟨newShape, chunksApply chunkLen (transposeFlat subs stride) a.data⟩

end UArray

/-- The bit-decoding loop of `Array::<u8>::inverse_bits`: starting from 0,
OR in `1 << (j % 128)` for every nonzero bit entry `j` (Rust
`1u128.overflowing_shl(j as u32)` masks the shift amount by 128). -/
def decodeBits (bits : List Nat) : Nat :=
  (List.range bits.length).foldl
    (fun n j => if bits.getD j 0 ≠ 0 then n ||| (1 <<< (j % 128)) else n) 0

namespace UArray

/-- The per-element bit expansion of `Array::<f64>::bits`: entry `j`
(0 = least significant) is `u8::from(n & (1 << j) != 0)`. -/
def encBits (k n : Nat) : List Nat :=
  (List.range k).map (fun j => if n.testBit j then 1 else 0)

/-- `Array::<f64>::bits` from `monadic.rs`, on an array of natural numbers
(the `fract() != 0` domain check never fires for naturals, so the `Err`
branch is dropped).  `Nat.size max` is the bit count computed by the
`while max != 0 { max_bits += 1; max >>= 1 }` loop. -/
def bitsA (a : UArray Nat) : UArray Nat :=
  match a.data.max? with
  | none => ⟨a.shape ++ [0], []⟩
  | some mx =>
    let maxBits := Nat.size mx
    ⟨a.shape ++ [maxBits], a.data.flatMap (encBits maxBits)⟩

/-- `Array::<u8>::inverse_bits` from `monadic.rs`.  `none` models the
"Array must be a list of booleans" error, and the division-by-zero panic of
`self.data.len() / bit_string_len` when the trailing axis is 0 but the
buffer is non-empty (impossible for a valid array). -/
def inverseBitsA (a : UArray Nat) : Option (UArray Nat) :=
  if a.data.any (fun b => 1 < b) then none
  else if a.data.isEmpty then
    if a.shape.isEmpty then some ⟨[], [0]⟩
    else some ⟨a.shape.dropLast, List.replicate a.shape.dropLast.prod 0⟩
  else if a.shape.isEmpty then
    some ⟨[], [if a.data.getD 0 0 ≠ 0 then 1 else 0]⟩
  else
    let bitStringLen := a.shape.getLastD 0
    if bitStringLen = 0 then none
    else
      some ⟨a.shape.dropLast,
        (chunksN (a.data.length / bitStringLen) bitStringLen a.data).map decodeBits⟩

end UArray

/-- The rank ≤ 1 case of `Value::wher` from `monadic.rs`: each position `i`
of the counts list is repeated `counts[i]` times. -/
def wher (counts : List Nat) : List Nat :=
  (List.range counts.length).flatMap (fun i => List.replicate (counts.getD i 0) i)

/-- The sorted (two-pointer) branch of `Value::inverse_where`: for each
output position `i` in order, advance past indices `< i`, then count the
run of indices equal to `i`. -/
def invWhereSortedGo : Nat → Nat → List Nat → List Nat
  | 0, _, _ => []
  | k + 1, i, idxs =>
    let rest := idxs.dropWhile (fun x => x < i)
    let run := rest.takeWhile (fun x => x == i)
    run.length :: invWhereSortedGo k (i + 1) (rest.drop run.length)

/-- The rank ≤ 1 case of `Value::inverse_where` from `monadic.rs`: the
output length is `max index + 1` (0 when empty); a pre-sorted index list is
tallied with a two-pointer scan, otherwise with a hash-map tally (modelled
by `List.count`). -/
def inverseWhere (indices : List Nat) : List Nat :=
  let isSorted := (indices.zip indices.tail).all (fun p => p.1 ≤ p.2)
  let size := (indices.max?.map (· + 1)).getD 0
  if isSorted then invWhereSortedGo size 0 indices
  else (List.range size).map (fun i => indices.count i)

namespace UArray

/-- The row comparison used by `Array::rise`/`sort_up`: compare two rows
element-wise (`array_cmp`, here `Nat` comparison) and take the first
non-equal result; `zip` stops at the shorter row. -/
def lexCmp : List Nat → List Nat → Ordering
  | a :: as_, b :: bs =>
    (match compare a b with
     | .eq => lexCmp as_ bs
     | o => o)
  | _, _ => .eq

/-- `Array::rise` from `monadic.rs` on a `Nat` array: `none` models the
rank-0 error; an element-free array yields the empty permutation; otherwise
the row indices `0..row_count` are stably sorted by the lexicographic row
comparison. -/
def rise (a : UArray Nat) : Option (List Nat) :=
  if a.rank = 0 then none
  else if a.elementCount = 0 then some []
  else
    some (((List.finRange a.rowCount).mergeSort
      (fun i j => lexCmp (a.rowSlice i.val) (a.rowSlice j.val) != Ordering.gt)).map Fin.val)

/-- `Array::sort_up` from `monadic.rs` on a `Nat` array: rank-1 arrays sort
the data directly; higher ranks rebuild the buffer by copying rows in the
order given by `rise`. -/
def sortUp (a : UArray Nat) : Option (UArray Nat) :=
  if a.rank = 0 then none
  else if a.elementCount = 0 then some a
  else if a.rank = 1 then
    some { a with data := a.data.mergeSort (fun x y => compare x y != Ordering.gt) }
  else
    match rise a with
    | none => none
    | some p => some { a with data := p.flatMap (fun i => a.rowSlice i) }

end UArray

open MShape UArray

/-- `cmpList` returns `eq` exactly on equal lists, for a comparison that
returns `eq` exactly on equal elements. -/
theorem cmpList_eq_iff {cmp : α → α → Ordering}
    (hcmp : ∀ a b : α, cmp a b = .eq ↔ a = b) :
    ∀ as_ bs : List α, cmpList cmp as_ bs = .eq ↔ as_ = bs := by
  intro as_
  induction as_ with
  | nil => intro bs; cases bs <;> simp [cmpList]
  | cons a as_ ih =>
    intro bs
    cases bs with
    | nil => simp [cmpList]
    | cons b bs =>
      cases h : cmp a b with
      | eq =>
        have hab : a = b := (hcmp a b).mp h
        subst hab
        simp [cmpList, h, ih bs]
      | lt =>
        simp only [cmpList, h]
        constructor
        · intro hc; exact absurd hc (by decide)
        · intro hc
          injection hc with h1 _
          rw [(hcmp a b).mpr h1] at h
          exact absurd h (by decide)
      | gt =>
        simp only [cmpList, h]
        constructor
        · intro hc; exact absurd hc (by decide)
        · intro hc
          injection hc with h1 _
          rw [(hcmp a b).mpr h1] at h
          exact absurd h (by decide)


/-- C1: the claim as stated is false: `Shape::drain` removes entries from
the size list only, leaving the marker list untouched, so draining a range
of a marked shape breaks the one-marker-per-dimension invariant.
Concretely, draining dimension 0 of the shape `[2 × 3]` with markers
`['a', 'b']` leaves 1 size but 2 markers. -/
theorem C1_counterexample :
    MShape.Lockstep ⟨[2, 3], ['a', 'b']⟩ ∧
      ¬ MShape.Lockstep (MShape.drain ⟨[2, 3], ['a', 'b']⟩ 0 1) := by
  decide

/-- C1 (amended): on a shape whose marker list is present and in lockstep
(one marker per dimension), `push`, `pop`, `insert`, `remove`, `split_off`,
`rotate_left/right` and the ranged rotations all preserve the marker
invariant; `drain` is excluded, since it removes sizes without touching
markers. -/
theorem C1_mutations_preserve_lockstep (s : MShape)
    (hm : s.markers ≠ []) (hs : s.markers.length = s.sizes.length) :
    (∀ d, (s.push d).Lockstep) ∧
    (∀ d s', s.pop = some (d, s') → s'.Lockstep) ∧
    (∀ i d, i ≤ s.rank → ((s.insert i d)).Lockstep) ∧
    (∀ i, i < s.rank → ((s.remove i).2).Lockstep) ∧
    (∀ n, ((s.splitOff n).1).Lockstep ∧ ((s.splitOff n).2).Lockstep) ∧
    (∀ n, n ≤ s.rank → (s.rotateLeft n).Lockstep ∧ (s.rotateRight n).Lockstep) ∧
    (∀ a b n, b ≤ s.rank →
      (s.rotateLeftAt a b n).Lockstep ∧ (s.rotateRightAt a b n).Lockstep) := by
  obtain ⟨sizes, markers⟩ := s
  simp only [MShape.rank] at *
  refine ⟨?_, ?_, ?_, ?_, ?_, ?_, ?_⟩
  · intro d
    right
    simp only [MShape.push]
    split
    · simp [hs]
    · simp [hm, hs]
  · intro d s' hpop
    rcases hlast : sizes.getLast? with _ | sz
    · simp [MShape.pop, hlast] at hpop
    · rcases hml : markers.getLast? with _ | m
      · rw [List.getLast?_eq_none_iff] at hml; exact absurd hml hm
      · simp only [MShape.pop, hlast, hml, if_neg hm] at hpop
        simp only [Option.some.injEq, Prod.mk.injEq] at hpop
        obtain ⟨-, h2⟩ := hpop
        subst h2
        right
        simp [hs]
  · intro i d hi
    right
    have hi' : i ≤ markers.length := by omega
    have hi'' : i ≤ sizes.length := by omega
    simp only [MShape.insert]
    split <;>
      simp_all [List.length_insertIdx i _ hi', List.length_insertIdx i _ hi'']
  · intro i hi
    right
    simp only [MShape.remove, if_neg hm]
    rw [List.length_eraseIdx_of_lt hi, List.length_eraseIdx_of_lt (show i < markers.length by omega)]
    omega
  · intro n
    constructor <;> (right; simp only [MShape.splitOff]; simp; omega)
  · intro n _
    constructor <;>
      (right
       simp only [MShape.rotateLeft, MShape.rotateRight, if_neg hm]
       simp [MShape.rotL, MShape.rotR]
       omega)
  · intro a b n _
    constructor <;>
      (right
       simp only [MShape.rotateLeftAt, MShape.rotateRightAt, if_neg hm]
       simp [MShape.rotL, MShape.rotR]
       omega)

/-- Witness for `C1_mutations_preserve_lockstep` at the shape `[2 × 3]`
with markers `['a', 'b']`. -/
theorem C1_mutations_preserve_lockstep_witness :
    (MShape.push ⟨[2, 3], ['a', 'b']⟩ ⟨4, 'c'⟩).Lockstep ∧
      ((MShape.remove ⟨[2, 3], ['a', 'b']⟩ 0).2).Lockstep := by
  have h := C1_mutations_preserve_lockstep ⟨[2, 3], ['a', 'b']⟩ (by decide) (by decide)
  exact ⟨h.1 ⟨4, 'c'⟩, h.2.2.2.1 0 (by decide)⟩

/-- C2: the claim as stated is false: `Shape` derives `PartialEq`/`Ord`
structurally, so two shapes with identical sizes but different markers are
unequal (and ordered by their markers). -/
theorem C2_counterexample :
    (MShape.mk [2] ['a']).sizes = (MShape.mk [2] ['b']).sizes ∧
      MShape.beqShape ⟨[2], ['a']⟩ ⟨[2], ['b']⟩ = false ∧
      MShape.cmpShape ⟨[2], ['a']⟩ ⟨[2], ['b']⟩ ≠ .eq := by
  decide

/-- C2 (amended): only comparison of a `Shape` against a bare size list
(`PartialEq<[usize]>`) is defined purely over sizes; `Shape`'s own derived
equality and ordering compare the size lists first and then the marker
lists, so they coincide with equality of both components. -/
theorem C2_equality_over_sizes_and_markers :
    (∀ (s : MShape) (l : List Nat), s.beqSlice l = true ↔ s.sizes = l) ∧
    (∀ s t : MShape, s.cmpShape t = .eq ↔ s.sizes = t.sizes ∧ s.markers = t.markers) ∧
    (∀ s t : MShape, s.beqShape t = true ↔ s.sizes = t.sizes ∧ s.markers = t.markers) := by
  refine ⟨?_, ?_, ?_⟩
  · intro s l; simp [MShape.beqSlice]
  · intro s t
    have h1 := cmpList_eq_iff (fun a b : Nat => Nat.compare_eq_eq) s.sizes t.sizes
    have h2 := cmpList_eq_iff (fun a b : Char => compare_eq_iff_eq) s.markers t.markers
    simp only [MShape.cmpShape]
    rcases h : cmpList compare s.sizes t.sizes with _ | _ | _ <;> simp_all
  · intro s t; simp [MShape.beqShape]

/-- C10: `deshape_depth` with `depth ≥ rank` clamps the depth to the rank,
splits off an empty tail whose product is 1, and pushes that 1 as a new
trailing dimension: the sizes gain a trailing 1 (rank grows by one), the
data buffer is untouched, and the array is not left unchanged. -/
theorem C10_deshape_depth_ge_rank {T : Type} (a : UArray T) (depth : Nat)
    (h : a.rank ≤ depth) :
    deshapeDepth depth a = ⟨a.shape ++ [1], a.data⟩ ∧ deshapeDepth depth a ≠ a := by
  have hd : min depth a.shape.length = a.shape.length := min_eq_right h
  have heq : deshapeDepth depth a = ⟨a.shape ++ [1], a.data⟩ := by
    simp [deshapeDepth, hd, UArray.rank, List.take_length, List.drop_length]
  refine ⟨heq, ?_⟩
  rw [heq]
  intro hcontra
  have := congrArg (fun x : UArray T => x.shape.length) hcontra
  simp at this

/-- A per-chunk rewrite that preserves chunk length preserves the length of
`chunksGo`. -/
theorem chunksGo_length {T : Type} {n : Nat} {f : List T → List T}
    (hf : ∀ x : List T, x.length = n → (f x).length = n) :
    ∀ (k : Nat) (l : List T), k * n ≤ l.length → (chunksGo k n f l).length = l.length := by
  intro k
  induction k with
  | zero => intro l _; rfl
  | succ k ih =>
    intro l hk
    have hkn : k * n + n ≤ l.length := by
      have : (k + 1) * n = k * n + n := by ring
      omega
    have htake : (l.take n).length = n := by simp; omega
    have hdrop : k * n ≤ (l.drop n).length := by simp; omega
    simp only [chunksGo, List.length_append, hf _ htake, ih (l.drop n) hdrop]
    rw [List.length_drop]
    omega

/-- Chunkwise inverse rewrites cancel on `chunksGo`. -/
theorem chunksGo_roundtrip {T : Type} {n : Nat} {f g : List T → List T}
    (hf : ∀ x : List T, x.length = n → (f x).length = n)
    (hgf : ∀ x : List T, x.length = n → g (f x) = x) :
    ∀ (k : Nat) (l : List T), k * n ≤ l.length →
      chunksGo k n g (chunksGo k n f l) = l := by
  intro k
  induction k with
  | zero => intro l _; rfl
  | succ k ih =>
    intro l hk
    have hkn : k * n + n ≤ l.length := by
      have : (k + 1) * n = k * n + n := by ring
      omega
    have htake : (l.take n).length = n := by simp; omega
    have hdrop : k * n ≤ (l.drop n).length := by simp; omega
    have hflen : (f (l.take n)).length = n := hf _ htake
    simp only [chunksGo]
    rw [List.take_left' hflen, List.drop_left' hflen, hgf _ htake, ih (l.drop n) hdrop]
    exact List.take_append_drop n l

/-- Chunkwise inverse rewrites cancel on `chunksApply`. -/
theorem chunksApply_roundtrip {T : Type} {n : Nat} {f g : List T → List T}
    (hf : ∀ x : List T, x.length = n → (f x).length = n)
    (hgf : ∀ x : List T, x.length = n → g (f x) = x)
    (l : List T) : chunksApply n g (chunksApply n f l) = l := by
  unfold chunksApply
  have hle : l.length / n * n ≤ l.length := Nat.div_mul_le_self _ _
  rw [chunksGo_length hf _ _ hle]
  exact chunksGo_roundtrip hf hgf _ _ hle

/-- The chunks of a list of length `k * len` all have length `len`, and
there are `k` of them. -/
theorem chunksN_spec {T : Type} {len : Nat} :
    ∀ (k : Nat) (c : List T), c.length = k * len →
      (chunksN k len c).length = k ∧ ∀ b ∈ chunksN k len c, b.length = len := by
  intro k
  induction k with
  | zero => intro c _; simp [chunksN]
  | succ k ih =>
    intro c hc
    have hc' : c.length = k * len + len := by
      rw [hc]; ring
    have hlen : len ≤ c.length := by omega
    have hdrop : (c.drop len).length = k * len := by simp; omega
    obtain ⟨ihl, ihb⟩ := ih (c.drop len) hdrop
    refine ⟨by simp [chunksN, ihl], ?_⟩
    intro b hb
    simp only [chunksN, List.mem_cons] at hb
    rcases hb with rfl | hb
    · simp; omega
    · exact ihb _ hb

/-- Flattening the chunks of a list of length `k * len` recovers the
list. -/
theorem chunksN_flatten {T : Type} {len : Nat} :
    ∀ (k : Nat) (c : List T), c.length = k * len → (chunksN k len c).flatten = c := by
  intro k
  induction k with
  | zero =>
    intro c hc
    rw [Nat.zero_mul] at hc
    simp [chunksN, (List.eq_nil_of_length_eq_zero hc).symm]
  | succ k ih =>
    intro c hc
    have hc' : c.length = k * len + len := by
      rw [hc]; ring
    have hdrop : (c.drop len).length = k * len := by simp; omega
    simp only [chunksN, List.flatten_cons, ih (c.drop len) hdrop]
    exact List.take_append_drop len c

/-- Chunking the flattening of `k` blocks of length `len` recovers the
blocks. -/
theorem chunksN_of_flatten {T : Type} {len : Nat} :
    ∀ (bs : List (List T)), (∀ b ∈ bs, b.length = len) →
      chunksN bs.length len bs.flatten = bs := by
  intro bs
  induction bs with
  | nil => intro _; rfl
  | cons b bs ih =>
    intro hb
    have hbl : b.length = len := hb b (by simp)
    simp only [List.length_cons, chunksN, List.flatten_cons]
    rw [List.take_left' hbl, List.drop_left' hbl]
    rw [ih (fun x hx => hb x (by simp [hx]))]

/-- The total length of `k` blocks of length `len` is `k * len`. -/
theorem flatten_length_of_blocks {T : Type} {len : Nat} (bs : List (List T))
    (hb : ∀ b ∈ bs, b.length = len) : bs.flatten.length = bs.length * len := by
  induction bs with
  | nil => simp
  | cons b bs ih =>
    simp only [List.flatten_cons, List.length_append, List.length_cons,
      hb b (by simp), ih (fun x hx => hb x (by simp [hx]))]
    ring

/-- The block-reversal performed by `reverse_depth` on one chunk preserves
the chunk length. -/
theorem revChunk_length {T : Type} {n rowLen : Nat} (c : List T)
    (hc : c.length = n * rowLen) :
    ((chunksN n rowLen c).reverse.flatten).length = c.length := by
  obtain ⟨hk, hbs⟩ := chunksN_spec n c hc
  rw [flatten_length_of_blocks _ (by intro b hb; exact hbs b (List.mem_reverse.mp hb))]
  simp [hk, hc]

/-- Reversing the row blocks of a chunk twice restores the chunk. -/
theorem revChunk_involution {T : Type} {n rowLen : Nat} (c : List T)
    (hc : c.length = n * rowLen) :
    ((chunksN n rowLen ((chunksN n rowLen c).reverse.flatten)).reverse.flatten) = c := by
  obtain ⟨hk, hbs⟩ := chunksN_spec n c hc
  have hrevb : ∀ b ∈ (chunksN n rowLen c).reverse, b.length = rowLen := by
    intro b hb; exact hbs b (List.mem_reverse.mp hb)
  have h1 : chunksN n rowLen ((chunksN n rowLen c).reverse.flatten) =
      (chunksN n rowLen c).reverse := by
    have := @chunksN_of_flatten T rowLen ((chunksN n rowLen c).reverse) hrevb
    rwa [List.length_reverse, hk] at this
  rw [h1, List.reverse_reverse]
  exact chunksN_flatten n c hc

/-- `List.getD` is the head (with default) of the dropped suffix. -/
theorem getD_eq_headD_drop (l : List α) (i : Nat) (d : α) :
    l.getD i d = (l.drop i).headD d := by
  induction l generalizing i with
  | nil => cases i <;> rfl
  | cons a l ih =>
    cases i with
    | zero => rfl
    | succ i => exact ih i

/-- `reverse_depth` unfolded on an explicit array. -/
theorem reverseDepth_mk {T : Type} (depth : Nat) (sh : List Nat) (d : List T) :
    reverseDepth depth ⟨sh, d⟩ =
      if (sh.drop (min depth sh.length)).isEmpty then ⟨sh, d⟩
      else if (sh.drop (min depth sh.length)).prod = 0 then ⟨sh, d⟩
      else ⟨sh, chunksApply (sh.drop (min depth sh.length)).prod
        (fun c => (chunksN (sh.getD (min depth sh.length) 0)
          ((sh.drop (min depth sh.length)).prod / (sh.getD (min depth sh.length) 0))
          c).reverse.flatten) d⟩ := rfl

/-- C5: `reverse_depth` is an involution: applying it twice at any depth to
any array restores the original shape and data. -/
theorem C5_reverse_involution {T : Type} (a : UArray T) (depth : Nat) :
    reverseDepth depth (reverseDepth depth a) = a := by
  obtain ⟨sh, dat⟩ := a
  by_cases h1 : (sh.drop (min depth sh.length)).isEmpty
  · have e : reverseDepth depth (⟨sh, dat⟩ : UArray T) = ⟨sh, dat⟩ := by
      rw [reverseDepth_mk, if_pos h1]
    rw [e, e]
  · by_cases h2 : (sh.drop (min depth sh.length)).prod = 0
    · have e : reverseDepth depth (⟨sh, dat⟩ : UArray T) = ⟨sh, dat⟩ := by
        rw [reverseDepth_mk, if_neg h1, if_pos h2]
      rw [e, e]
    · obtain ⟨h, t, hht⟩ : ∃ h t, sh.drop (min depth sh.length) = h :: t := by
        rcases hd : sh.drop (min depth sh.length) with _ | ⟨h, t⟩
        · rw [hd] at h1; simp at h1
        · exact ⟨h, t, rfl⟩
      have hgetD : sh.getD (min depth sh.length) 0 = h := by
        rw [getD_eq_headD_drop, hht]; rfl
      have hh0 : h ≠ 0 := by
        intro hcon
        rw [hht, hcon] at h2
        simp at h2
      have hdiv : (h * t.prod) / h = t.prod :=
        Nat.mul_div_cancel_left _ (Nat.pos_of_ne_zero hh0)
      have e1 : reverseDepth depth (⟨sh, dat⟩ : UArray T) =
          ⟨sh, chunksApply (h * t.prod)
            (fun c => (chunksN h t.prod c).reverse.flatten) dat⟩ := by
        rw [reverseDepth_mk, if_neg h1, if_neg h2, hht, hgetD, List.prod_cons, hdiv]
      rw [e1, reverseDepth_mk, if_neg h1, if_neg h2, hht, hgetD, List.prod_cons, hdiv]
      congr 1
      exact chunksApply_roundtrip
        (fun x hx => (@revChunk_length T h t.prod x hx).trans hx)
        (fun x hx => @revChunk_involution T h t.prod x hx)
        dat

/-- C8: `first` and `last` fail unconditionally on a rank-0 scalar with a
non-fill error; on a leading dimension of 0 they produce an array of the
remaining shape filled with one row's worth of the configured fill value,
and with no fill configured they fail with an error whose fill-failure
marker is set. -/
theorem C8_first_last_scalar_and_fill {T : Type} (fill : Option T) (a : UArray T) :
    (a.shape = [] →
      firstA fill a = .error ⟨"Cannot take first of a scalar", false⟩ ∧
      lastA fill a = .error ⟨"Cannot take last of a scalar", false⟩) ∧
    (∀ rest, a.shape = 0 :: rest → a.Valid →
      (∀ f, fill = some f →
        firstA fill a = .ok ⟨rest, List.replicate rest.prod f⟩ ∧
        lastA fill a = .ok ⟨rest, List.replicate rest.prod f⟩) ∧
      (fill = none →
        (∃ e, firstA fill a = .error e ∧ e.isFill = true) ∧
        (∃ e, lastA fill a = .error e ∧ e.isFill = true))) := by
  constructor
  · intro hsc
    constructor <;> simp [firstA, lastA, hsc]
  · intro rest hsh hv
    have hdata : a.data = [] := by
      have : a.data.length = 0 := by
        rw [hv, hsh]; simp
      exact List.eq_nil_of_length_eq_zero this
    have hrow : a.rowLen = rest.prod := by
      simp [rowLen, hsh]
    constructor
    · intro f hf
      subst hf
      constructor <;> simp [firstA, lastA, hsh, hdata, hrow, List.replicate]
    · intro hf
      subst hf
      exact ⟨⟨⟨"Cannot take first of an empty array", true⟩, by simp [firstA, hsh], rfl⟩,
        ⟨⟨"Cannot take last of an empty array", true⟩, by simp [lastA, hsh], rfl⟩⟩

/-- Witness for `C8_first_last_scalar_and_fill`: a 0×2 array with fill 7
yields `[7, 7]` of shape `[2]`; without a fill it fails with the
fill-marked error; a scalar fails with a non-fill error. -/
theorem C8_first_last_scalar_and_fill_witness :
    (firstA (some 7) (UArray.mk [0, 2] ([] : List Nat)) = .ok ⟨[2], [7, 7]⟩) ∧
      (∃ e, firstA (none : Option Nat) ⟨[0, 2], []⟩ = .error e ∧ e.isFill = true) ∧
      (firstA (some 7) (UArray.mk [] [5]) =
        .error ⟨"Cannot take first of a scalar", false⟩) :=
  ⟨((C8_first_last_scalar_and_fill (some 7) ⟨[0, 2], []⟩).2 [2] rfl (by decide)).1 7 rfl |>.1,
   ((C8_first_last_scalar_and_fill (none : Option Nat) ⟨[0, 2], []⟩).2 [2] rfl
      (by decide)).2 rfl |>.1,
   ((C8_first_last_scalar_and_fill (some 7) (UArray.mk [] [5])).1 rfl).1⟩

/-- Witness for `C10_deshape_depth_ge_rank` at a 2×3 array and depth 5. -/
theorem C10_deshape_depth_ge_rank_witness :
    deshapeDepth 5 (UArray.mk [2, 3] [1, 2, 3, 4, 5, 6]) =
        ⟨[2, 3, 1], [1, 2, 3, 4, 5, 6]⟩ ∧
      deshapeDepth 5 (UArray.mk [2, 3] [1, 2, 3, 4, 5, 6]) ≠ ⟨[2, 3], [1, 2, 3, 4, 5, 6]⟩ :=
  C10_deshape_depth_ge_rank ⟨[2, 3], [1, 2, 3, 4, 5, 6]⟩ 5 (by decide)

/-- `wher` with an explicit index offset, for reasoning by induction on the
counts list: position `j` of `counts` contributes `counts[j]` copies of
`off + j`. -/
def wherFrom (off : Nat) (counts : List Nat) : List Nat :=
  (List.range counts.length).flatMap (fun j => List.replicate (counts.getD j 0) (off + j))

theorem wherFrom_zero (counts : List Nat) : wher counts = wherFrom 0 counts := by
  unfold wher wherFrom
  simp

theorem wherFrom_cons (off c : Nat) (cs : List Nat) :
    wherFrom off (c :: cs) = List.replicate c off ++ wherFrom (off + 1) cs := by
  unfold wherFrom
  rw [List.length_cons, List.range_succ_eq_map, List.flatMap_cons, List.flatMap_map]
  simp only [List.getD_cons_zero, List.getD_cons_succ, Nat.add_zero]
  refine congrArg _ ?_
  refine congrArg _ ?_
  funext j
  congr 1
  omega

theorem wherFrom_mem (counts : List Nat) :
    ∀ off x, x ∈ wherFrom off counts → off ≤ x ∧ x < off + counts.length := by
  induction counts with
  | nil => intro off x hx; simp [wherFrom] at hx
  | cons c cs ih =>
    intro off x hx
    rw [wherFrom_cons, List.mem_append] at hx
    rcases hx with hx | hx
    · have := List.eq_of_mem_replicate hx
      subst this
      simp only [List.length_cons]
      omega
    · obtain ⟨h1, h2⟩ := ih (off + 1) x hx
      simp only [List.length_cons]
      omega

theorem chain_le_replicate (c x : Nat) : List.Chain' (· ≤ ·) (List.replicate c x) := by
  induction c with
  | zero => simp
  | succ c ih =>
    rw [List.replicate_succ]
    cases c with
    | zero => simp
    | succ c =>
      rw [List.replicate_succ]
      refine (List.chain'_cons).mpr ⟨le_refl x, ?_⟩
      rw [← List.replicate_succ]
      exact ih

theorem wherFrom_chain (counts : List Nat) :
    ∀ off, List.Chain' (· ≤ ·) (wherFrom off counts) := by
  induction counts with
  | nil => intro off; simp [wherFrom]
  | cons c cs ih =>
    intro off
    rw [wherFrom_cons]
    refine List.Chain'.append (chain_le_replicate c off) (ih (off + 1)) ?_
    intro x hx y hy
    have hx' := List.eq_of_mem_replicate (List.mem_of_mem_getLast? hx)
    have hy' := (wherFrom_mem cs (off + 1) y (List.mem_of_mem_head? hy)).1
    omega

theorem wherFrom_last_mem (counts : List Nat) :
    ∀ off c, counts.getLast? = some c → c ≠ 0 →
      off + counts.length - 1 ∈ wherFrom off counts := by
  induction counts with
  | nil => intro off c hc _; simp at hc
  | cons c0 cs ih =>
    intro off c hc hc0
    rw [wherFrom_cons, List.mem_append]
    cases cs with
    | nil =>
      left
      simp only [List.getLast?_singleton, Option.some.injEq] at hc
      subst hc
      rw [List.mem_replicate]
      exact ⟨hc0, by simp⟩
    | cons c1 cs' =>
      right
      have hlast : (c1 :: cs').getLast? = some c := by
        rw [← hc, List.getLast?_cons_cons]
      have hmem := ih (off + 1) c hlast hc0
      have harith : off + (c0 :: c1 :: cs').length - 1 = off + 1 + (c1 :: cs').length - 1 := by
        simp only [List.length_cons]
        omega
      rw [harith]
      exact hmem

theorem dropWhile_eq_self_of_false {α : Type} {p : α → Bool} :
    ∀ l : List α, (∀ x ∈ l, p x = false) → l.dropWhile p = l := by
  intro l hl
  cases l with
  | nil => rfl
  | cons a l =>
    rw [List.dropWhile_cons, hl a (by simp)]
    simp

theorem takeWhile_append_of_true {α : Type} {p : α → Bool} :
    ∀ l₁ l₂ : List α, (∀ x ∈ l₁, p x = true) →
      (l₁ ++ l₂).takeWhile p = l₁ ++ l₂.takeWhile p := by
  intro l₁
  induction l₁ with
  | nil => intro l₂ _; rfl
  | cons a l₁ ih =>
    intro l₂ hl
    rw [List.cons_append, List.takeWhile_cons, hl a (by simp)]
    simp only [List.cons_append]
    rw [ih l₂ (fun x hx => hl x (by simp [hx]))]
    simp

theorem takeWhile_eq_nil_of_false {α : Type} {p : α → Bool} :
    ∀ l : List α, (∀ x ∈ l, p x = false) → l.takeWhile p = [] := by
  intro l hl
  cases l with
  | nil => rfl
  | cons a l =>
    rw [List.takeWhile_cons, hl a (by simp)]
    simp

theorem invWhereSortedGo_wherFrom (counts : List Nat) :
    ∀ off, invWhereSortedGo counts.length off (wherFrom off counts) = counts := by
  induction counts with
  | nil => intro off; rfl
  | cons c cs ih =>
    intro off
    rw [wherFrom_cons]
    simp only [List.length_cons, invWhereSortedGo]
    have hdrop : (List.replicate c off ++ wherFrom (off + 1) cs).dropWhile
        (fun x => decide (x < off)) = List.replicate c off ++ wherFrom (off + 1) cs := by
      refine dropWhile_eq_self_of_false _ ?_
      intro x hx
      rw [List.mem_append] at hx
      rcases hx with hx | hx
      · have := List.eq_of_mem_replicate hx
        subst this
        simp
      · have := (wherFrom_mem cs (off + 1) x hx).1
        simp
        omega
    have htake : (List.replicate c off ++ wherFrom (off + 1) cs).takeWhile
        (fun x => x == off) = List.replicate c off := by
      rw [takeWhile_append_of_true _ _ (by
        intro x hx
        have := List.eq_of_mem_replicate hx
        subst this
        simp)]
      rw [takeWhile_eq_nil_of_false _ (by
        intro x hx
        have := (wherFrom_mem cs (off + 1) x hx).1
        simp
        omega)]
      simp
    rw [hdrop, htake, List.length_replicate, List.drop_left' (List.length_replicate c off)]
    rw [ih (off + 1)]

theorem zip_tail_all_le (l : List Nat) :
    ((l.zip l.tail).all fun p => p.1 ≤ p.2) = true ↔ List.Chain' (· ≤ ·) l := by
  induction l with
  | nil => simp
  | cons a l ih =>
    cases l with
    | nil => simp
    | cons b l' =>
      rw [List.tail_cons, List.zip_cons_cons, List.all_cons, Bool.and_eq_true,
        List.chain'_cons, ← ih]
      rw [List.tail_cons]
      simp

theorem wherFrom_max (counts : List Nat) (c : Nat)
    (hc : counts.getLast? = some c) (hc0 : c ≠ 0) :
    (wherFrom 0 counts).max? = some (counts.length - 1) := by
  rw [List.max?_eq_some_iff (fun a => le_refl a) (fun a b => max_choice a b)
    (fun a b c => max_le_iff)]
  constructor
  · have := wherFrom_last_mem counts 0 c hc hc0
    simpa using this
  · intro b hb
    have := (wherFrom_mem counts 0 b hb).2
    omega

/-- C7: the claim as stated is false: `inverse_where` reconstructs only up
to the largest index produced by `where`, so trailing zero counts are lost.
Concretely `where([0]) = []` and `inverse_where([]) = []`, not `[0]`. -/
theorem C7_counterexample : inverseWhere (wher [0]) ≠ [0] := by decide

/-- C7 (amended): for every rank ≤ 1 counts array that is empty or whose
last count is nonzero, `where` followed by `inverse_where` restores the
original counts exactly (trailing zero counts would be truncated). -/
theorem C7_where_inverse_roundtrip (counts : List Nat)
    (h : counts.getLast? ≠ some 0) :
    inverseWhere (wher counts) = counts := by
  rcases hcs : counts.getLast? with _ | c
  · have hnil : counts = [] := by rwa [List.getLast?_eq_none_iff] at hcs
    subst hnil
    rfl
  · have hc0 : c ≠ 0 := by
      intro hzero
      rw [hzero] at hcs
      exact h hcs
    have hne : counts ≠ [] := by
      intro hh
      rw [hh] at hcs
      simp at hcs
    have hlen1 : 1 ≤ counts.length := by
      cases counts
      · exact absurd rfl hne
      · simp
    rw [wherFrom_zero]
    have hsorted : (((wherFrom 0 counts).zip (wherFrom 0 counts).tail).all
        fun p => p.1 ≤ p.2) = true :=
      (zip_tail_all_le _).mpr (wherFrom_chain counts 0)
    have hmax : (wherFrom 0 counts).max? = some (counts.length - 1) :=
      wherFrom_max counts c hcs hc0
    unfold inverseWhere
    rw [hsorted, hmax]
    have hred : (Option.map (fun x => x + 1) (some (counts.length - 1))).getD 0 =
        counts.length := by
      simp only [Option.map_some', Option.getD_some]
      omega
    simp only [if_true, hred]
    exact invWhereSortedGo_wherFrom counts 0

/-- Witness for `C7_where_inverse_roundtrip` at the spec example
`[2, 0, 1]`. -/
theorem C7_where_inverse_roundtrip_witness :
    inverseWhere (wher [2, 0, 1]) = [2, 0, 1] :=
  C7_where_inverse_roundtrip [2, 0, 1] (by decide)

theorem encBits_length (k n : Nat) : (encBits k n).length = k := by
  simp [encBits]

theorem encBits_getD (k n j : Nat) (hj : j < k) :
    (encBits k n).getD j 0 = if n.testBit j then 1 else 0 := by
  unfold encBits
  rw [List.getD_eq_getElem?_getD, List.getElem?_map, List.getElem?_range hj]
  rfl

theorem decode_foldl_testBit (K n : Nat) (hK : K ≤ 128) :
    ∀ k, k ≤ K → ∀ i,
      ((List.range k).foldl
        (fun acc j => if (encBits K n).getD j 0 ≠ 0 then acc ||| (1 <<< (j % 128)) else acc)
        0).testBit i = (decide (i < k) && n.testBit i) := by
  intro k
  induction k with
  | zero => intro _ i; simp
  | succ k ih =>
    intro hk i
    rw [List.range_succ, List.foldl_append, List.foldl_cons, List.foldl_nil]
    have hgd := encBits_getD K n k (by omega)
    have hmod : k % 128 = k := Nat.mod_eq_of_lt (by omega)
    have hshift : (1 : Nat) <<< k = 2 ^ k := by
      rw [Nat.shiftLeft_eq]
      ring
    cases htb : n.testBit k with
    | true =>
      rw [hgd]
      simp only [htb, if_true]
      rw [if_pos (by simp), hmod, hshift, Nat.testBit_lor, ih (by omega) i,
        Nat.testBit_two_pow]
      by_cases hik : i = k
      · subst hik
        simp [htb]
      · have hd : decide (k = i) = false := decide_eq_false (by omega)
        rw [hd, Bool.or_false]
        have : decide (i < k) = decide (i < k + 1) := by
          rw [decide_eq_decide]
          omega
        rw [this]
    | false =>
      rw [hgd]
      simp only [htb, if_false]
      rw [if_neg (by simp), ih (by omega) i]
      by_cases hik : i = k
      · subst hik
        simp [htb]
      · have : decide (i < k) = decide (i < k + 1) := by
          rw [decide_eq_decide]
          omega
        rw [this]

/-- Decoding the bit expansion of `n` with the `inverse_bits` loop recovers
`n`, for a bit width of at most 128 (the `u128` shift-mask bound) that can
hold `n`. -/
theorem decode_encBits (n K : Nat) (hK : K ≤ 128) (hn : n < 2 ^ K) :
    decodeBits (encBits K n) = n := by
  unfold decodeBits
  rw [encBits_length]
  apply Nat.eq_of_testBit_eq
  intro i
  rw [decode_foldl_testBit K n hK K (le_refl K) i]
  by_cases hi : i < K
  · simp [hi]
  · have h1 : n.testBit i = false :=
      Nat.testBit_lt_two_pow
        (lt_of_lt_of_le hn (Nat.pow_le_pow_right (by omega) (by omega)))
    simp [hi, h1]

theorem chunksN_flatMap {α : Type} (f : α → List Nat) (k : Nat)
    (hf : ∀ x, (f x).length = k) :
    ∀ l : List α, chunksN l.length k (l.flatMap f) = l.map f := by
  intro l
  induction l with
  | nil => rfl
  | cons a l ih =>
    simp only [List.length_cons, List.flatMap_cons, chunksN, List.map_cons]
    rw [List.take_left' (hf a), List.drop_left' (hf a), ih]

/-- C6: for every valid array of naturals below `2^53` (the f64-exact
integer range), `bits` followed by `inverse_bits` restores the array
exactly. -/
theorem C6_bits_roundtrip (a : UArray Nat) (hv : a.Valid)
    (h53 : ∀ n ∈ a.data, n < 2 ^ 53) :
    inverseBitsA (bitsA a) = some a := by
  obtain ⟨sh, dat⟩ := a
  simp only [Valid] at hv
  rcases hmx : dat.max? with _ | mx
  · have hdat : dat = [] := List.max?_eq_none_iff.mp hmx
    subst hdat
    have hb : bitsA ⟨sh, []⟩ = ⟨sh ++ [0], []⟩ := rfl
    rw [hb]
    have hprod : sh.prod = 0 := by
      simp at hv
      omega
    unfold inverseBitsA
    simp [List.dropLast_concat, hprod]
  · have hmem : mx ∈ dat ∧ ∀ b ∈ dat, b ≤ mx := by
      rwa [List.max?_eq_some_iff (fun a => le_refl a) (fun a b => max_choice a b)
        (fun a b c => max_le_iff)] at hmx
    have hK53 : mx.size ≤ 53 := Nat.size_le.mpr (h53 mx hmem.1)
    have hK128 : mx.size ≤ 128 := by omega
    have hdatne : dat ≠ [] := by
      intro h
      rw [h] at hmx
      simp at hmx
    by_cases hmx0 : mx = 0
    · subst hmx0
      have hall0 : ∀ b ∈ dat, b = 0 := fun b hb => Nat.le_zero.mp (hmem.2 b hb)
      have hfm : dat.flatMap (encBits 0) = [] := by
        induction dat with
        | nil => rfl
        | cons x xs ih => simp_all [encBits]
      have hb : bitsA ⟨sh, dat⟩ = ⟨sh ++ [0], []⟩ := by
        unfold bitsA
        rw [hmx]
        simp [Nat.size_zero, hfm]
      rw [hb]
      unfold inverseBitsA
      simp only [List.any_nil, List.isEmpty_nil, if_true, if_false, Bool.false_eq_true,
        List.dropLast_concat]
      have hshne : (sh ++ [0]).isEmpty = false := by simp
      rw [hshne]
      simp only [Bool.false_eq_true, if_false, if_true]
      have hdat0 : dat = List.replicate sh.prod 0 := by
        rw [← hv]
        exact List.eq_replicate_of_mem hall0
      rw [← hdat0]
    · have hK1 : 1 ≤ mx.size := by
        have := mt Nat.size_eq_zero.mp hmx0
        omega
      have hb : bitsA ⟨sh, dat⟩ = ⟨sh ++ [mx.size], dat.flatMap (encBits mx.size)⟩ := by
        unfold bitsA
        rw [hmx]
      rw [hb]
      have hlen : (dat.flatMap (encBits mx.size)).length = dat.length * mx.size := by
        rw [List.length_flatMap]
        have hmapeq : dat.map (List.length ∘ encBits mx.size) =
            List.replicate dat.length mx.size := by
          rw [List.eq_replicate_iff]
          constructor
          · simp
          · intro b hb
            rw [List.mem_map] at hb
            obtain ⟨x, -, hx⟩ := hb
            rw [← hx]
            exact encBits_length mx.size x
        rw [hmapeq, List.sum_replicate, smul_eq_mul]
      have hlenne : (dat.flatMap (encBits mx.size)).length ≠ 0 := by
        rw [hlen]
        have h1 : dat.length ≠ 0 := by
          intro h
          exact hdatne (List.eq_nil_of_length_eq_zero h)
        exact Nat.mul_ne_zero h1 (by omega)
      have hne2 : (dat.flatMap (encBits mx.size)).isEmpty = false := by
        rcases hfm : dat.flatMap (encBits mx.size) with _ | ⟨x, xs⟩
        · rw [hfm] at hlenne
          simp at hlenne
        · rfl
      have hany : (dat.flatMap (encBits mx.size)).any (fun b => 1 < b) = false := by
        rw [List.any_eq_false]
        intro x hx
        rw [List.mem_flatMap] at hx
        obtain ⟨n, -, hn⟩ := hx
        unfold encBits at hn
        rw [List.mem_map] at hn
        obtain ⟨j, -, hj⟩ := hn
        simp only [decide_eq_true_eq]
        split at hj <;> omega
      unfold inverseBitsA
      simp only [hany, hne2, Bool.false_eq_true, if_false]
      have hshne : (sh ++ [mx.size]).isEmpty = false := by simp
      rw [hshne]
      simp only [Bool.false_eq_true, if_false, List.getLastD_concat,
        List.dropLast_concat]
      rw [if_neg (by omega)]
      rw [hlen, Nat.mul_div_cancel _ (by omega : 0 < mx.size)]
      rw [chunksN_flatMap (encBits mx.size) mx.size (encBits_length mx.size) dat]
      rw [List.map_map]
      have hmapid : dat.map (decodeBits ∘ encBits mx.size) = dat.map id := by
        apply List.map_congr_left
        intro n hn
        exact decode_encBits n mx.size hK128
          (lt_of_le_of_lt (hmem.2 n hn) (Nat.lt_size_self mx))
      rw [hmapid, List.map_id]

/-- Witness for `C6_bits_roundtrip` at the spec example `[5, 3, 0]`: a
3-bit trailing axis storing bit 0 first, restored exactly by
`inverse_bits`. -/
theorem C6_bits_roundtrip_witness :
    inverseBitsA (bitsA ⟨[3], [5, 3, 0]⟩) = some ⟨[3], [5, 3, 0]⟩ ∧
      bitsA ⟨[3], [5, 3, 0]⟩ = ⟨[3, 3], [1, 0, 1, 1, 1, 0, 0, 0, 0]⟩ := by
  have hs5 : Nat.size 5 = 3 :=
    le_antisymm (Nat.size_le.mpr (by norm_num)) (Nat.lt_size.mpr (by norm_num))
  refine ⟨C6_bits_roundtrip ⟨[3], [5, 3, 0]⟩ (by decide) (by decide), ?_⟩
  unfold bitsA
  rw [show ([5, 3, 0] : List Nat).max? = some 5 by rfl]
  simp only [hs5]
  decide

section TransposeLemmas

open MShape

theorem rotL_perm {α : Type} (n : Nat) (l : List α) : List.Perm (rotL n l) l := by
  unfold MShape.rotL
  conv_rhs => rw [← List.take_append_drop n l]
  exact List.perm_append_comm

theorem rotR_perm {α : Type} (n : Nat) (l : List α) : List.Perm (rotR n l) l := by
  unfold MShape.rotR
  exact rotL_perm _ _

theorem rotL_length {α : Type} (n : Nat) (l : List α) : (rotL n l).length = l.length :=
  (rotL_perm n l).length_eq

theorem rotL_rotL {α : Type} (l : List α) (m n : Nat) (h : m + n = l.length) :
    rotL n (rotL m l) = l := by
  unfold MShape.rotL
  have hdl : (l.drop m).length = n := by
    simp
    omega
  rw [List.drop_left' hdl, List.take_left' hdl]
  exact List.take_append_drop m l

theorem rotR_rotL {α : Type} (l : List α) (n : Nat) (h : n ≤ l.length) :
    rotR n (rotL n l) = l := by
  unfold MShape.rotR
  rw [rotL_length]
  exact rotL_rotL l n (l.length - n) (by omega)

theorem rotL_rotR {α : Type} (l : List α) (n : Nat) (h : n ≤ l.length) :
    rotL n (rotR n l) = l := by
  unfold MShape.rotR
  exact rotL_rotL l (l.length - n) n (by omega)

theorem transposeFlat_length {T : Type} [Inhabited T] (subs stride : Nat) (c : List T) :
    (transposeFlat subs stride c).length = c.length := by
  simp [UArray.transposeFlat]

theorem transposeFlat_getD {T : Type} [Inhabited T] (subs stride : Nat) (c : List T)
    (j : Nat) (hj : j < c.length) :
    (transposeFlat subs stride c).getD j default =
      c.getD ((j % subs) * stride + j / subs) default := by
  unfold UArray.transposeFlat
  rw [List.getD_eq_getElem?_getD, List.getElem?_map, List.getElem?_range hj]
  rfl

theorem transposeFlat_roundtrip {T : Type} [Inhabited T] (subs stride : Nat) (c : List T)
    (hc : c.length = subs * stride) :
    transposeFlat stride subs (transposeFlat subs stride c) = c := by
  rcases Nat.eq_zero_or_pos subs with hs | hs
  · have : c = [] := List.eq_nil_of_length_eq_zero (by simp [hc, hs])
    subst this
    rfl
  rcases Nat.eq_zero_or_pos stride with ht | ht
  · have : c = [] := List.eq_nil_of_length_eq_zero (by simp [hc, ht])
    subst this
    rfl
  apply List.ext_getElem
  · rw [transposeFlat_length, transposeFlat_length]
  intro i hi hic
  have hi' : i < c.length := hic
  have hmod : i % stride < stride := Nat.mod_lt _ ht
  have hdiv : i / stride < subs := by
    rw [Nat.div_lt_iff_lt_mul ht]
    omega
  have hj : (i % stride) * subs + i / stride < c.length := by
    have h1 : (i % stride) * subs + i / stride < ((i % stride) + 1) * subs := by
      nlinarith
    have h2 : ((i % stride) + 1) * subs ≤ stride * subs := by
      exact Nat.mul_le_mul_right _ (by omega)
    nlinarith
  have houter : i < (transposeFlat subs stride c).length := by
    rw [transposeFlat_length]
    exact hi'
  have e1 : (transposeFlat stride subs (transposeFlat subs stride c))[i] =
      (transposeFlat subs stride c).getD ((i % stride) * subs + i / stride) default := by
    rw [← List.getD_eq_getElem _ default hi]
    rw [show (transposeFlat stride subs (transposeFlat subs stride c)).getD i default =
      (transposeFlat subs stride c).getD ((i % stride) * subs + i / stride) default from by
        have := transposeFlat_getD stride subs (transposeFlat subs stride c) i houter
        simpa using this]
  rw [e1, transposeFlat_getD subs stride c _ hj]
  have hm : ((i % stride) * subs + i / stride) % subs = i / stride := by
    rw [Nat.mul_comm (i % stride) subs, Nat.mul_add_mod]
    exact Nat.mod_eq_of_lt hdiv
  have hd : ((i % stride) * subs + i / stride) / subs = i % stride := by
    rw [Nat.mul_comm (i % stride) subs, Nat.mul_add_div hs, Nat.div_eq_of_lt hdiv]
    omega
  rw [hm, hd]
  have hidx : (i / stride) * stride + i % stride = i := by
    rw [Nat.mul_comm]
    exact Nat.div_add_mod i stride
  rw [hidx]
  exact List.getD_eq_getElem c default hi'

theorem transposeDepth_early {T : Type} [Inhabited T] (depth : Nat) (k : Int)
    (a : UArray T)
    (h : a.rank - min depth a.rank < 2 ∨ min depth a.rank + k.natAbs = a.rank ∨
      k.natAbs = 0) :
    transposeDepth depth k a = some a := by
  unfold transposeDepth
  rw [if_pos h]

theorem transposeDepth_main_pos {T : Type} [Inhabited T] (depth : Nat) (k : Int)
    (sh : List Nat) (dat : List T)
    (hdep : depth ≤ sh.length)
    (hne : ¬(sh.length - depth < 2 ∨ depth + k.natAbs = sh.length ∨ k.natAbs = 0))
    (hguard : ¬ (sh.drop depth).length < k.natAbs)
    (hkpos : 0 < k) :
    transposeDepth depth k ⟨sh, dat⟩ =
      if (sh.drop depth).contains 0 then
        some ⟨sh.take depth ++ rotL k.natAbs (sh.drop depth), dat⟩
      else
        some ⟨sh.take depth ++ rotL k.natAbs (sh.drop depth),
          chunksApply (sh.drop depth).prod
            (transposeFlat ((sh.drop depth).take k.natAbs).prod
              ((sh.drop depth).prod / ((sh.drop depth).take k.natAbs).prod)) dat⟩ := by
  have hmin : min depth sh.length = depth := min_eq_left hdep
  unfold transposeDepth
  simp only [UArray.rank, hmin]
  rw [if_neg hne, if_neg hguard]
  simp only [if_pos hkpos]

theorem transposeDepth_main_neg {T : Type} [Inhabited T] (depth : Nat) (k : Int)
    (sh : List Nat) (dat : List T)
    (hdep : depth ≤ sh.length)
    (hne : ¬(sh.length - depth < 2 ∨ depth + k.natAbs = sh.length ∨ k.natAbs = 0))
    (hguard : ¬ (sh.drop depth).length < k.natAbs)
    (hkneg : ¬ 0 < k) :
    transposeDepth depth k ⟨sh, dat⟩ =
      if (sh.drop depth).contains 0 then
        some ⟨sh.take depth ++ rotR k.natAbs (sh.drop depth), dat⟩
      else
        some ⟨sh.take depth ++ rotR k.natAbs (sh.drop depth),
          chunksApply (sh.drop depth).prod
            (transposeFlat ((sh.drop depth).reverse.drop k.natAbs).prod
              ((sh.drop depth).prod / ((sh.drop depth).reverse.drop k.natAbs).prod)) dat⟩ := by
  have hmin : min depth sh.length = depth := min_eq_left hdep
  unfold transposeDepth
  simp only [UArray.rank, hmin]
  rw [if_neg hne, if_neg hguard]
  simp only [if_neg hkneg]

/-- C3: the claim as stated is false: an amount that is a nonzero multiple
of the remaining rank but exceeds it is not a no-op — the shape rotation
index is out of range and the operation panics (`none`).  Concretely, a
2×2 array with depth 0 and amount 4 (4 ≡ 0 mod 2) panics. -/
theorem C3_counterexample :
    ((4 : Int) % ((2 : Int) - 0) = 0) ∧
      transposeDepth 0 4 (UArray.mk [2, 2] [1, 2, 3, 4]) ≠
        some (UArray.mk [2, 2] [1, 2, 3, 4]) := by
  constructor
  · decide
  · intro h
    have : (none : Option (UArray Nat)) = some (UArray.mk [2, 2] [1, 2, 3, 4]) := by
      rw [← h]
      rfl
    cases this

/-- C3 (amended): `transpose_depth` is a no-op (returning the array
unchanged) when the rank is below `depth + 2`, when the amount is 0, and
when the absolute amount equals the remaining rank `rank - depth`; larger
multiples of the remaining rank instead panic in the shape rotation. -/
theorem C3_transpose_noop {T : Type} [Inhabited T] (a : UArray T) (depth : Nat)
    (k : Int) :
    (a.rank < depth + 2 → transposeDepth depth k a = some a) ∧
    (k = 0 → transposeDepth depth k a = some a) ∧
    (depth ≤ a.rank → k.natAbs = a.rank - depth → transposeDepth depth k a = some a) := by
  refine ⟨?_, ?_, ?_⟩
  · intro h
    refine transposeDepth_early depth k a (Or.inl ?_)
    rcases le_total depth a.rank with hle | hle
    · rw [min_eq_left hle]
      omega
    · rw [min_eq_right hle]
      omega
  · intro h
    subst h
    exact transposeDepth_early depth 0 a (Or.inr (Or.inr rfl))
  · intro hle hcnt
    refine transposeDepth_early depth k a (Or.inr (Or.inl ?_))
    rw [min_eq_left hle, hcnt]
    omega

/-- Witness for `C3_transpose_noop`: a rank-1 array at depth 0 (rank below
depth + 2), a zero amount, and amount 2 on a 2×3 array (remaining rank 2)
are all no-ops. -/
theorem C3_transpose_noop_witness :
    transposeDepth 0 1 (UArray.mk [4] [9, 8, 7, 6]) = some ⟨[4], [9, 8, 7, 6]⟩ ∧
      transposeDepth 1 0 (UArray.mk [2, 3] [1, 2, 3, 4, 5, 6]) =
        some ⟨[2, 3], [1, 2, 3, 4, 5, 6]⟩ ∧
      transposeDepth 0 2 (UArray.mk [2, 3] [1, 2, 3, 4, 5, 6]) =
        some ⟨[2, 3], [1, 2, 3, 4, 5, 6]⟩ :=
  ⟨(C3_transpose_noop ⟨[4], [9, 8, 7, 6]⟩ 0 1).1 (by decide),
   (C3_transpose_noop ⟨[2, 3], [1, 2, 3, 4, 5, 6]⟩ 1 0).2.1 rfl,
   (C3_transpose_noop ⟨[2, 3], [1, 2, 3, 4, 5, 6]⟩ 0 2).2.2 (by decide) (by decide)⟩

/-- C4: the claim as stated is false: a rotation amount whose absolute
value exceeds the remaining rank makes the shape rotation panic
(modelled as `none`), so the round trip does not restore the array.
Concretely, a 2×2 array (rank 2 ≥ depth 0 + 2) with `k = 3` fails. -/
theorem C4_counterexample :
    (transposeDepth 0 3 (UArray.mk [2, 2] [1, 2, 3, 4])).bind (transposeDepth 0 (-3)) ≠
      some (UArray.mk [2, 2] [1, 2, 3, 4]) := by
  intro h
  have : (none : Option (UArray Nat)) = some (UArray.mk [2, 2] [1, 2, 3, 4]) := by
    rw [← h]
    rfl
  cases this

/-- C4 (amended): for every array with rank ≥ depth + 2 and every signed
amount `k` with `|k| ≤ rank - depth`, `transpose(depth, k)` followed by
`transpose(depth, -k)` restores the original shape and data. -/
theorem C4_transpose_roundtrip {T : Type} [Inhabited T] (a : UArray T) (depth : Nat)
    (k : Int) (h2 : depth + 2 ≤ a.rank) (hk : k.natAbs ≤ a.rank - depth) :
    (transposeDepth depth k a).bind (transposeDepth depth (-k)) = some a := by
  obtain ⟨sh, dat⟩ := a
  simp only [UArray.rank] at h2 hk
  have hdep : depth ≤ sh.length := by omega
  have hmin : min depth sh.length = depth := min_eq_left hdep
  have hnegabs : (-k).natAbs = k.natAbs := Int.natAbs_neg k
  by_cases hc0 : k.natAbs = 0
  · have e1 := transposeDepth_early depth k (⟨sh, dat⟩ : UArray T) (Or.inr (Or.inr hc0))
    have e2 := transposeDepth_early depth (-k) (⟨sh, dat⟩ : UArray T)
      (Or.inr (Or.inr (by rw [hnegabs]; exact hc0)))
    rw [e1]
    exact e2
  · by_cases hcm : depth + k.natAbs = sh.length
    · have e1 := transposeDepth_early depth k (⟨sh, dat⟩ : UArray T)
        (Or.inr (Or.inl (by
          show min depth sh.length + k.natAbs = sh.length
          rw [hmin]
          exact hcm)))
      have e2 := transposeDepth_early depth (-k) (⟨sh, dat⟩ : UArray T)
        (Or.inr (Or.inl (by
          show min depth sh.length + (-k).natAbs = sh.length
          rw [hmin, hnegabs]
          exact hcm)))
      rw [e1]
      exact e2
    · have hcnt1 : 1 ≤ k.natAbs := by omega
      have hcntlt : k.natAbs < sh.length - depth := by omega
      have hremlen : (sh.drop depth).length = sh.length - depth := by simp
      have hguard : ¬ (sh.drop depth).length < k.natAbs := by omega
      have hne : ¬(sh.length - depth < 2 ∨ depth + k.natAbs = sh.length ∨ k.natAbs = 0) := by
        push_neg
        exact ⟨by omega, hcm, by omega⟩
      have htklen : (sh.take depth).length = depth := by
        rw [List.length_take]
        omega
      have hcntrem : k.natAbs ≤ (sh.drop depth).length := by omega
      rcases lt_trichotomy k 0 with hkneg | hkz | hkpos
      · -- backward rotation first
        -- backward rotation first
        have hknn : ¬ 0 < k := by omega
        have hkpos' : 0 < -k := by omega
        have e1 := transposeDepth_main_neg depth k sh dat hdep hne hguard hknn
        have hXsh : (sh.take depth ++ rotR k.natAbs (sh.drop depth)).length = sh.length := by
          rw [List.length_append, htklen, (rotR_perm _ _).length_eq]
          omega
        have hXdrop : (sh.take depth ++ rotR k.natAbs (sh.drop depth)).drop depth =
            rotR k.natAbs (sh.drop depth) := List.drop_left' htklen
        have hXtake : (sh.take depth ++ rotR k.natAbs (sh.drop depth)).take depth =
            sh.take depth := List.take_left' htklen
        have hne' : ¬((sh.take depth ++ rotR k.natAbs (sh.drop depth)).length - depth < 2 ∨
            depth + (-k).natAbs = (sh.take depth ++ rotR k.natAbs (sh.drop depth)).length ∨
            (-k).natAbs = 0) := by
          rw [hXsh, hnegabs]
          exact hne
        have hguard' : ¬ ((sh.take depth ++ rotR k.natAbs (sh.drop depth)).drop depth).length <
            (-k).natAbs := by
          rw [hXdrop, (rotR_perm _ _).length_eq, hnegabs]
          exact hguard
        have hdep' : depth ≤ (sh.take depth ++ rotR k.natAbs (sh.drop depth)).length := by
          rw [hXsh]
          exact hdep
        have hrotback : rotL k.natAbs (rotR k.natAbs (sh.drop depth)) = sh.drop depth :=
          rotL_rotR _ _ hcntrem
        by_cases hz : (sh.drop depth).contains 0
        · rw [e1, if_pos hz]
          have e2 := transposeDepth_main_pos depth (-k)
            (sh.take depth ++ rotR k.natAbs (sh.drop depth)) dat hdep' hne'
            (by rw [hXdrop, (rotR_perm _ _).length_eq, hnegabs]; exact hguard) hkpos'
          rw [hXdrop, hnegabs] at e2
          have hzX : (rotR k.natAbs (sh.drop depth)).contains 0 = true := by
            rw [List.elem_iff] at hz ⊢
            exact ((rotR_perm _ _).mem_iff).mpr hz
          rw [if_pos hzX, hXtake, hrotback, List.take_append_drop] at e2
          exact e2
        · have hpos : ∀ x ∈ sh.drop depth, 0 < x := by
            intro x hxmem
            rcases Nat.eq_zero_or_pos x with h0 | h0
            · exfalso
              apply hz
              rw [h0] at hxmem
              exact List.elem_iff.mpr hxmem
            · exact h0
          have hrevdrop1 : (sh.drop depth).reverse.drop k.natAbs =
              ((sh.drop depth).take ((sh.drop depth).length - k.natAbs)).reverse := by
            conv_lhs =>
              rw [← List.take_append_drop ((sh.drop depth).length - k.natAbs) (sh.drop depth)]
            rw [List.reverse_append]
            refine List.drop_left' ?_
            rw [List.length_reverse, List.length_drop]
            omega
          have hApos : 0 < ((sh.drop depth).take ((sh.drop depth).length - k.natAbs)).prod :=
            CanonicallyOrderedCommSemiring.list_prod_pos.mpr
              (fun x hx => hpos x (List.mem_of_mem_take hx))
          have hBpos : 0 < ((sh.drop depth).drop ((sh.drop depth).length - k.natAbs)).prod :=
            CanonicallyOrderedCommSemiring.list_prod_pos.mpr
              (fun x hx => hpos x (List.mem_of_mem_drop hx))
          have hsplit : ((sh.drop depth).take ((sh.drop depth).length - k.natAbs)).prod *
              ((sh.drop depth).drop ((sh.drop depth).length - k.natAbs)).prod =
              (sh.drop depth).prod :=
            List.prod_take_mul_prod_drop _ _
          have hstride1 : (sh.drop depth).prod /
              ((sh.drop depth).take ((sh.drop depth).length - k.natAbs)).prod =
              ((sh.drop depth).drop ((sh.drop depth).length - k.natAbs)).prod := by
            rw [← hsplit]
            exact Nat.mul_div_cancel_left _ hApos
          rw [e1, if_neg hz, hrevdrop1, List.prod_reverse, hstride1]
          have e2 := transposeDepth_main_pos depth (-k)
            (sh.take depth ++ rotR k.natAbs (sh.drop depth))
            (chunksApply (sh.drop depth).prod
              (transposeFlat ((sh.drop depth).take ((sh.drop depth).length - k.natAbs)).prod
                ((sh.drop depth).drop ((sh.drop depth).length - k.natAbs)).prod) dat)
            hdep' hne' hguard' hkpos'
          rw [hXdrop, hnegabs] at e2
          have hzX : ¬ (rotR k.natAbs (sh.drop depth)).contains 0 = true := by
            intro hcon
            apply hz
            rw [List.elem_iff] at hcon ⊢
            exact ((rotR_perm _ _).mem_iff).mp hcon
          rw [if_neg hzX, hXtake, hrotback, List.take_append_drop] at e2
          have htakecnt : (rotR k.natAbs (sh.drop depth)).take k.natAbs =
              (sh.drop depth).drop ((sh.drop depth).length - k.natAbs) := by
            unfold MShape.rotR MShape.rotL
            refine List.take_left' ?_
            rw [List.length_drop]
            omega
          rw [htakecnt] at e2
          have hprodrot : (rotR k.natAbs (sh.drop depth)).prod = (sh.drop depth).prod :=
            (rotR_perm _ _).prod_eq
          rw [hprodrot] at e2
          have hstride2 : (sh.drop depth).prod /
              ((sh.drop depth).drop ((sh.drop depth).length - k.natAbs)).prod =
              ((sh.drop depth).take ((sh.drop depth).length - k.natAbs)).prod := by
            rw [← hsplit, Nat.mul_comm]
            exact Nat.mul_div_cancel_left _ hBpos
          rw [hstride2] at e2
          have e3 : chunksApply (sh.drop depth).prod
              (transposeFlat ((sh.drop depth).drop ((sh.drop depth).length - k.natAbs)).prod
                ((sh.drop depth).take ((sh.drop depth).length - k.natAbs)).prod)
              (chunksApply (sh.drop depth).prod
                (transposeFlat
                  ((sh.drop depth).take ((sh.drop depth).length - k.natAbs)).prod
                  ((sh.drop depth).drop ((sh.drop depth).length - k.natAbs)).prod) dat) =
              dat := by
            refine chunksApply_roundtrip ?_ ?_ dat
            · intro x hx
              rw [transposeFlat_length]
              exact hx
            · intro x hx
              exact transposeFlat_roundtrip _ _ x (by rw [hx, ← hsplit])
          exact e2.trans (by rw [e3])

      · -- k = 0: impossible here
        exfalso
        rw [hkz] at hc0
        simp at hc0
      · -- forward rotation first
        -- forward rotation first
        have hknn : ¬ 0 < -k := by omega
        have e1 := transposeDepth_main_pos depth k sh dat hdep hne hguard hkpos
        have hXsh : (sh.take depth ++ rotL k.natAbs (sh.drop depth)).length = sh.length := by
          rw [List.length_append, htklen, rotL_length]
          omega
        have hXdrop : (sh.take depth ++ rotL k.natAbs (sh.drop depth)).drop depth =
            rotL k.natAbs (sh.drop depth) := List.drop_left' htklen
        have hXtake : (sh.take depth ++ rotL k.natAbs (sh.drop depth)).take depth =
            sh.take depth := List.take_left' htklen
        have hne' : ¬((sh.take depth ++ rotL k.natAbs (sh.drop depth)).length - depth < 2 ∨
            depth + (-k).natAbs = (sh.take depth ++ rotL k.natAbs (sh.drop depth)).length ∨
            (-k).natAbs = 0) := by
          rw [hXsh, hnegabs]
          exact hne
        have hguard' :
            ¬ ((sh.take depth ++ rotL k.natAbs (sh.drop depth)).drop depth).length <
              (-k).natAbs := by
          rw [hXdrop, rotL_length, hnegabs]
          exact hguard
        have hdep' : depth ≤ (sh.take depth ++ rotL k.natAbs (sh.drop depth)).length := by
          rw [hXsh]
          exact hdep
        have hrotback : rotR k.natAbs (rotL k.natAbs (sh.drop depth)) = sh.drop depth :=
          rotR_rotL _ _ hcntrem
        by_cases hz : (sh.drop depth).contains 0
        · rw [e1, if_pos hz]
          have e2 := transposeDepth_main_neg depth (-k)
            (sh.take depth ++ rotL k.natAbs (sh.drop depth)) dat hdep' hne'
            hguard' hknn
          rw [hXdrop, hnegabs] at e2
          have hzX : (rotL k.natAbs (sh.drop depth)).contains 0 = true := by
            rw [List.elem_iff] at hz ⊢
            exact ((rotL_perm _ _).mem_iff).mpr hz
          rw [if_pos hzX, hXtake, hrotback, List.take_append_drop] at e2
          exact e2
        · have hpos : ∀ x ∈ sh.drop depth, 0 < x := by
            intro x hxmem
            rcases Nat.eq_zero_or_pos x with h0 | h0
            · exfalso
              apply hz
              rw [h0] at hxmem
              exact List.elem_iff.mpr hxmem
            · exact h0
          have hApos : 0 < ((sh.drop depth).take k.natAbs).prod :=
            CanonicallyOrderedCommSemiring.list_prod_pos.mpr
              (fun x hx => hpos x (List.mem_of_mem_take hx))
          have hBpos : 0 < ((sh.drop depth).drop k.natAbs).prod :=
            CanonicallyOrderedCommSemiring.list_prod_pos.mpr
              (fun x hx => hpos x (List.mem_of_mem_drop hx))
          have hsplit : ((sh.drop depth).take k.natAbs).prod *
              ((sh.drop depth).drop k.natAbs).prod = (sh.drop depth).prod :=
            List.prod_take_mul_prod_drop _ _
          have hstride1 : (sh.drop depth).prod / ((sh.drop depth).take k.natAbs).prod =
              ((sh.drop depth).drop k.natAbs).prod := by
            rw [← hsplit]
            exact Nat.mul_div_cancel_left _ hApos
          rw [e1, if_neg hz, hstride1]
          have e2 := transposeDepth_main_neg depth (-k)
            (sh.take depth ++ rotL k.natAbs (sh.drop depth))
            (chunksApply (sh.drop depth).prod
              (transposeFlat ((sh.drop depth).take k.natAbs).prod
                ((sh.drop depth).drop k.natAbs).prod) dat)
            hdep' hne' hguard' hknn
          rw [hXdrop, hnegabs] at e2
          have hzX : ¬ (rotL k.natAbs (sh.drop depth)).contains 0 = true := by
            intro hcon
            apply hz
            rw [List.elem_iff] at hcon ⊢
            exact ((rotL_perm _ _).mem_iff).mp hcon
          rw [if_neg hzX, hXtake, hrotback, List.take_append_drop] at e2
          have hrevdrop : (rotL k.natAbs (sh.drop depth)).reverse.drop k.natAbs =
              ((sh.drop depth).drop k.natAbs).reverse := by
            unfold MShape.rotL
            rw [List.reverse_append]
            refine List.drop_left' ?_
            rw [List.length_reverse, List.length_take]
            omega
          rw [hrevdrop, List.prod_reverse] at e2
          have hprodrot : (rotL k.natAbs (sh.drop depth)).prod = (sh.drop depth).prod :=
            (rotL_perm _ _).prod_eq
          rw [hprodrot] at e2
          have hstride2 : (sh.drop depth).prod / ((sh.drop depth).drop k.natAbs).prod =
              ((sh.drop depth).take k.natAbs).prod := by
            rw [← hsplit, Nat.mul_comm]
            exact Nat.mul_div_cancel_left _ hBpos
          rw [hstride2] at e2
          have e3 : chunksApply (sh.drop depth).prod
              (transposeFlat ((sh.drop depth).drop k.natAbs).prod
                ((sh.drop depth).take k.natAbs).prod)
              (chunksApply (sh.drop depth).prod
                (transposeFlat ((sh.drop depth).take k.natAbs).prod
                  ((sh.drop depth).drop k.natAbs).prod) dat) = dat := by
            refine chunksApply_roundtrip ?_ ?_ dat
            · intro x hx
              rw [transposeFlat_length]
              exact hx
            · intro x hx
              exact transposeFlat_roundtrip _ _ x (by rw [hx, ← hsplit])
          exact e2.trans (by rw [e3])
/-- Witness for `C4_transpose_roundtrip`: a 2×2×3 array rotated by 2 at
depth 0 and by 1 at depth 1, each followed by the inverse rotation. -/
theorem C4_transpose_roundtrip_witness :
    (transposeDepth 0 2 (UArray.mk [2, 2, 3] (List.range 12))).bind
        (transposeDepth 0 (-2)) = some ⟨[2, 2, 3], List.range 12⟩ ∧
      (transposeDepth 1 (-1) (UArray.mk [2, 2, 3] (List.range 12))).bind
        (transposeDepth 1 1) = some ⟨[2, 2, 3], List.range 12⟩ :=
  ⟨C4_transpose_roundtrip ⟨[2, 2, 3], List.range 12⟩ 0 2 (by decide) (by decide),
   by
    have h := C4_transpose_roundtrip ⟨[2, 2, 3], List.range 12⟩ 1 (-1) (by decide) (by decide)
    simpa using h⟩

end TransposeLemmas

section RiseLemmas

open UArray

theorem lexCmp_cons (x y : Nat) (xs ys : List Nat) :
    lexCmp (x :: xs) (y :: ys) =
      match compare x y with
      | .eq => lexCmp xs ys
      | o => o := rfl

theorem lexCmp_cons_ne_gt (x y : Nat) (xs ys : List Nat) :
    lexCmp (x :: xs) (y :: ys) ≠ .gt ↔ x < y ∨ (x = y ∧ lexCmp xs ys ≠ .gt) := by
  rw [lexCmp_cons]
  rcases h : compare x y with _ | _ | _
  · simp [Nat.compare_eq_lt.mp h]
  · have hxy := Nat.compare_eq_eq.mp h
    simp [hxy, lt_irrefl]
  · have hyx := Nat.compare_eq_gt.mp h
    constructor
    · intro hc
      exact absurd rfl hc
    · intro hc
      rcases hc with h1 | ⟨h1, -⟩ <;> omega

theorem lexCmp_self (r : List Nat) : lexCmp r r = .eq := by
  induction r with
  | nil => rfl
  | cons x xs ih =>
    rw [lexCmp_cons, show compare x x = Ordering.eq from Nat.compare_eq_eq.mpr rfl]
    exact ih

theorem lexCmp_gt_asym : ∀ a b : List Nat, lexCmp a b = .gt → lexCmp b a ≠ .gt := by
  intro a
  induction a with
  | nil =>
    intro b h
    cases b <;> simp [lexCmp] at h
  | cons x xs ih =>
    intro b h
    cases b with
    | nil => simp [lexCmp] at h
    | cons y ys =>
      rw [lexCmp_cons] at h ⊢
      rcases hc : compare x y with _ | _ | _ <;> rw [hc] at h
      · simp at h
      · have hxy := Nat.compare_eq_eq.mp hc
        rw [show compare y x = Ordering.eq from Nat.compare_eq_eq.mpr hxy.symm]
        exact ih ys h
      · have hyx := Nat.compare_eq_gt.mp hc
        rw [show compare y x = Ordering.lt from Nat.compare_eq_lt.mpr hyx]
        exact fun hcon => Ordering.noConfusion hcon

theorem lexCmp_ne_gt_trans : ∀ a b c : List Nat, a.length = b.length →
    b.length = c.length → lexCmp a b ≠ .gt → lexCmp b c ≠ .gt → lexCmp a c ≠ .gt := by
  intro a
  induction a with
  | nil =>
    intro b c hab hbc _ _
    have hb : b = [] := List.eq_nil_of_length_eq_zero (by simp at hab; omega)
    have hc : c = [] := by
      subst hb
      exact List.eq_nil_of_length_eq_zero (by simp at hbc; omega)
    subst hc
    simp [lexCmp]
  | cons x xs ih =>
    intro b c hab hbc h1 h2
    cases b with
    | nil => simp at hab
    | cons y ys =>
      cases c with
      | nil => simp at hbc
      | cons z zs =>
        rw [lexCmp_cons_ne_gt] at h1 h2 ⊢
        rcases h1 with h1 | ⟨rfl, h1⟩
        · rcases h2 with h2 | ⟨rfl, h2⟩
          · exact Or.inl (by omega)
          · exact Or.inl h1
        · rcases h2 with h2 | ⟨rfl, h2⟩
          · exact Or.inl h2
          · refine Or.inr ⟨rfl, ih ys zs ?_ ?_ h1 h2⟩
            · simpa using hab
            · simpa using hbc

theorem lexCmp_single (x y : Nat) : lexCmp [x] [y] = compare x y := by
  rw [lexCmp_cons]
  rcases h : compare x y with _ | _ | _ <;> rfl

theorem pair_sublist_of_pairwise {α : Type} {r : α → α → Prop}
    (hirr : ∀ z : α, ¬ r z z) (htr : ∀ x y z : α, r x y → r y z → r x z) :
    ∀ (l : List α) (x y : α), l.Pairwise r → x ∈ l → y ∈ l → r x y →
      List.Sublist [x, y] l := by
  intro l
  induction l with
  | nil =>
    intro x y _ hx _ _
    simp at hx
  | cons a l ih =>
    intro x y hp hx hy hr
    rw [List.pairwise_cons] at hp
    obtain ⟨ha, hp'⟩ := hp
    rcases List.mem_cons.mp hx with rfl | hx'
    · rcases List.mem_cons.mp hy with rfl | hy'
      · exact absurd hr (hirr _)
      · exact List.Sublist.cons₂ _ (List.singleton_sublist.mpr hy')
    · rcases List.mem_cons.mp hy with rfl | hy'
      · exact absurd (htr _ _ _ hr (ha _ hx')) (hirr _)
      · exact List.Sublist.cons _ (ih _ _ hp' hx' hy' hr)

theorem flatMap_singleton_map {α : Type} (g : Nat → α) :
    ∀ (l : List Nat) (f : Nat → List α), (∀ x ∈ l, f x = [g x]) →
      l.flatMap f = l.map g := by
  intro l
  induction l with
  | nil => intro f _; rfl
  | cons x xs ih =>
    intro f hf
    rw [List.flatMap_cons, hf x (by simp), ih f (fun z hz => hf z (by simp [hz]))]
    rfl

theorem map_getD_range (l : List Nat) :
    (List.range l.length).map (fun i => l.getD i 0) = l := by
  apply List.ext_getElem
  · simp
  · intro i hi hil
    simp only [List.getElem_map, List.getElem_range]
    exact List.getD_eq_getElem l 0 hil

end RiseLemmas

open UArray

theorem bool_or_true (a b : Bool) (h : a = true ∨ b = true) : (a || b) = true := by
  rcases h with h | h <;> simp [h]

theorem ord_bne_gt_iff (o : Ordering) : (o != Ordering.gt) = true ↔ o ≠ Ordering.gt := by
  cases o <;> decide

/-- C9: for every valid array of rank ≥ 1, `rise` returns a stable sorting
permutation of the row indices: gathering the rows by it yields a
lexicographically ascending sequence, fully-equal rows keep their original
relative order, and `sort_up` produces exactly the data obtained by
gathering the rows in `rise` order — including the rank-1 case, where
`sort_up` sorts the data directly. -/
theorem C9_rise_sort_up (a : UArray Nat) (hv : a.Valid) (hr : 0 < a.rank) :
    ∃ p, rise a = some p ∧
      (0 < a.elementCount → List.Perm p (List.range a.rowCount)) ∧
      (p.map a.rowSlice).Pairwise (fun r s => lexCmp r s ≠ .gt) ∧
      (∀ i j, i < j → i ∈ p → j ∈ p → a.rowSlice i = a.rowSlice j →
        List.Sublist [i, j] p) ∧
      sortUp a = some ⟨a.shape, p.flatMap a.rowSlice⟩ := by
  obtain ⟨sh, dat⟩ := a
  have hr0 : ¬ (⟨sh, dat⟩ : UArray Nat).rank = 0 := by omega
  by_cases he : (⟨sh, dat⟩ : UArray Nat).elementCount = 0
  · refine ⟨[], ?_, ?_, ?_, ?_, ?_⟩
    · unfold rise
      rw [if_neg hr0, if_pos he]
    · intro h0
      omega
    · simp
    · intro i j _ hi
      simp at hi
    · have hdat : dat = [] := by
        refine List.eq_nil_of_length_eq_zero ?_
        have hv' := hv
        unfold UArray.Valid at hv'
        simp only at hv'
        rw [hv']
        exact he
      unfold sortUp
      rw [if_neg hr0, if_pos he]
      subst hdat
      rfl
  · cases sh with
    | nil =>
      unfold UArray.rank at hr
      simp at hr
    | cons n t =>
      have hvv : dat.length = n * t.prod := by
        have hv' := hv
        unfold UArray.Valid at hv'
        simpa [List.prod_cons] using hv'
      have hprodne : ¬ n * t.prod = 0 := by
        intro hcon
        apply he
        unfold UArray.elementCount
        simpa [List.prod_cons] using hcon
      have hn : 0 < n := by
        rcases Nat.eq_zero_or_pos n with h | h
        · exact absurd (by rw [h]; ring) hprodne
        · exact h
      have htp : 0 < t.prod := by
        rcases Nat.eq_zero_or_pos t.prod with h | h
        · exact absurd (by rw [h]; ring) hprodne
        · exact h
      have hrowlen : ∀ i : Nat, i < n →
          (UArray.rowSlice ⟨n :: t, dat⟩ i).length = t.prod := by
        intro i hi
        unfold UArray.rowSlice UArray.rowLen
        simp only [List.length_take, List.length_drop, List.drop_succ_cons,
          List.drop_zero]
        have hmul : i * t.prod + t.prod ≤ n * t.prod := by
          calc i * t.prod + t.prod = (i + 1) * t.prod := by ring
            _ ≤ n * t.prod := Nat.mul_le_mul_right _ (by omega)
        rw [hvv]
        generalize hA : i * t.prod = A at *
        generalize hB : n * t.prod = B at *
        omega
      have htrans : ∀ x y z : Fin ((⟨n :: t, dat⟩ : UArray Nat).rowCount),
          (lexCmp (UArray.rowSlice ⟨n :: t, dat⟩ x.val)
              (UArray.rowSlice ⟨n :: t, dat⟩ y.val) != Ordering.gt) →
          (lexCmp (UArray.rowSlice ⟨n :: t, dat⟩ y.val)
              (UArray.rowSlice ⟨n :: t, dat⟩ z.val) != Ordering.gt) →
          (lexCmp (UArray.rowSlice ⟨n :: t, dat⟩ x.val)
              (UArray.rowSlice ⟨n :: t, dat⟩ z.val) != Ordering.gt) := by
        intro x y z hxy hyz
        exact (ord_bne_gt_iff _).mpr (lexCmp_ne_gt_trans _ _ _
          ((hrowlen x.val x.isLt).trans (hrowlen y.val y.isLt).symm)
          ((hrowlen y.val y.isLt).trans (hrowlen z.val z.isLt).symm)
          ((ord_bne_gt_iff _).mp hxy) ((ord_bne_gt_iff _).mp hyz))
      have htotal : ∀ x y : Fin ((⟨n :: t, dat⟩ : UArray Nat).rowCount),
          ((lexCmp (UArray.rowSlice ⟨n :: t, dat⟩ x.val)
              (UArray.rowSlice ⟨n :: t, dat⟩ y.val) != Ordering.gt) ||
            (lexCmp (UArray.rowSlice ⟨n :: t, dat⟩ y.val)
              (UArray.rowSlice ⟨n :: t, dat⟩ x.val) != Ordering.gt)) = true := by
        intro x y
        by_cases h : lexCmp (UArray.rowSlice ⟨n :: t, dat⟩ x.val)
            (UArray.rowSlice ⟨n :: t, dat⟩ y.val) = .gt
        · exact bool_or_true _ _ (Or.inr ((ord_bne_gt_iff _).mpr (lexCmp_gt_asym _ _ h)))
        · exact bool_or_true _ _ (Or.inl ((ord_bne_gt_iff _).mpr h))
      refine ⟨((List.finRange ((⟨n :: t, dat⟩ : UArray Nat).rowCount)).mergeSort
        (fun i j => lexCmp (UArray.rowSlice ⟨n :: t, dat⟩ i.val)
          (UArray.rowSlice ⟨n :: t, dat⟩ j.val) != Ordering.gt)).map Fin.val,
        ?_, ?_, ?_, ?_, ?_⟩
      · unfold rise
        rw [if_neg hr0, if_neg he]
      · intro _
        have h1 := List.mergeSort_perm
          (List.finRange ((⟨n :: t, dat⟩ : UArray Nat).rowCount))
          (fun i j => lexCmp (UArray.rowSlice ⟨n :: t, dat⟩ i.val)
            (UArray.rowSlice ⟨n :: t, dat⟩ j.val) != Ordering.gt)
        have h2 := h1.map Fin.val
        rwa [List.map_coe_finRange] at h2
      · rw [List.map_map, List.pairwise_map]
        have hs := List.sorted_mergeSort htrans htotal
          (List.finRange ((⟨n :: t, dat⟩ : UArray Nat).rowCount))
        refine hs.imp ?_
        intro x y hxy
        exact (ord_bne_gt_iff _).mp hxy
      · intro i j hij hi hj heq
        rw [List.mem_map] at hi hj
        obtain ⟨fi, hfi, rfl⟩ := hi
        obtain ⟨fj, hfj, rfl⟩ := hj
        have hlt : fi < fj := Fin.lt_def.mpr hij
        have hsub : List.Sublist [fi, fj]
            (List.finRange ((⟨n :: t, dat⟩ : UArray Nat).rowCount)) :=
          pair_sublist_of_pairwise (fun z => lt_irrefl z)
            (fun x y z h1 h2 => lt_trans h1 h2) _ fi fj
            (List.pairwise_lt_finRange _) (List.mem_finRange fi)
            (List.mem_finRange fj) hlt
        have hab : (lexCmp (UArray.rowSlice ⟨n :: t, dat⟩ fi.val)
            (UArray.rowSlice ⟨n :: t, dat⟩ fj.val) != Ordering.gt) = true := by
          have h' : lexCmp (UArray.rowSlice ⟨n :: t, dat⟩ fi.val)
              (UArray.rowSlice ⟨n :: t, dat⟩ fj.val) ≠ Ordering.gt := by
            rw [heq, lexCmp_self]
            decide
          exact (ord_bne_gt_iff _).mpr h'
        have hres := List.pair_sublist_mergeSort htrans htotal hab hsub
        exact hres.map Fin.val
      · by_cases ht : t = []
        · subst ht
          have h1 : (⟨[n], dat⟩ : UArray Nat).rank = 1 := rfl
          have hdlen : dat.length = n := by
            simpa using hvv
          have hsort : sortUp ⟨[n], dat⟩ =
              some ⟨[n], dat.mergeSort (fun x y => compare x y != Ordering.gt)⟩ := by
            unfold sortUp
            rw [if_neg hr0, if_neg he, if_pos h1]
          rw [hsort]
          refine congrArg some ?_
          refine congrArg (UArray.mk [n]) ?_
          have hrowsingle : ∀ i : Nat, i < n →
              UArray.rowSlice ⟨[n], dat⟩ i = [dat.getD i 0] := by
            intro i hi
            unfold UArray.rowSlice UArray.rowLen
            simp only [List.drop_succ_cons, List.drop_zero, List.prod_nil,
              Nat.mul_one]
            have hic : i < dat.length := by omega
            rw [List.drop_eq_getElem_cons hic]
            rw [show List.take 1 (dat[i] :: List.drop (i + 1) dat) = [dat[i]] from rfl]
            rw [List.getD_eq_getElem dat 0 hic]
          have hmemlt : ∀ x ∈ ((List.finRange
              ((⟨[n], dat⟩ : UArray Nat).rowCount)).mergeSort
              (fun i j => lexCmp (UArray.rowSlice ⟨[n], dat⟩ i.val)
                (UArray.rowSlice ⟨[n], dat⟩ j.val) != Ordering.gt)).map Fin.val,
              x < n := by
            intro x hx
            rw [List.mem_map] at hx
            obtain ⟨fx, -, rfl⟩ := hx
            exact fx.isLt
          rw [flatMap_singleton_map (fun i => dat.getD i 0) _ _
            (fun x hx => hrowsingle x (hmemlt x hx))]
          have hlperm := List.mergeSort_perm dat (fun x y => compare x y != Ordering.gt)
          have htrans' : ∀ x y z : Nat, (compare x y != Ordering.gt) →
              (compare y z != Ordering.gt) → (compare x z != Ordering.gt) := by
            intro x y z h1 h2
            have h1' : ¬ y < x := fun hlt => (ord_bne_gt_iff _).mp h1 (Nat.compare_eq_gt.mpr hlt)
            have h2' : ¬ z < y := fun hlt => (ord_bne_gt_iff _).mp h2 (Nat.compare_eq_gt.mpr hlt)
            have h3 : ¬ compare x z = Ordering.gt := by
              intro hcon
              have := Nat.compare_eq_gt.mp hcon
              omega
            exact (ord_bne_gt_iff _).mpr h3
          have htotal' : ∀ x y : Nat,
              ((compare x y != Ordering.gt) || (compare y x != Ordering.gt)) = true := by
            intro x y
            by_cases h : compare x y = Ordering.gt
            · have h3 : ¬ compare y x = Ordering.gt := by
                intro hcon
                have h1 := Nat.compare_eq_gt.mp h
                have h2 := Nat.compare_eq_gt.mp hcon
                omega
              exact bool_or_true _ _ (Or.inr ((ord_bne_gt_iff _).mpr h3))
            · exact bool_or_true _ _ (Or.inl ((ord_bne_gt_iff _).mpr h))
          have hlsorted : (dat.mergeSort
              (fun x y => compare x y != Ordering.gt)).Sorted (· ≤ ·) := by
            have hs' := List.sorted_mergeSort htrans' htotal' dat
            exact hs'.imp (fun hxy =>
              le_of_not_lt (fun hlt => ((ord_bne_gt_iff _).mp hxy) (Nat.compare_eq_gt.mpr hlt)))
          have hs := List.sorted_mergeSort htrans htotal
            (List.finRange ((⟨[n], dat⟩ : UArray Nat).rowCount))
          have hrsorted : ((((List.finRange
              ((⟨[n], dat⟩ : UArray Nat).rowCount)).mergeSort
              (fun i j => lexCmp (UArray.rowSlice ⟨[n], dat⟩ i.val)
                (UArray.rowSlice ⟨[n], dat⟩ j.val) != Ordering.gt)).map Fin.val).map
              (fun i => dat.getD i 0)).Sorted (· ≤ ·) := by
            rw [List.map_map]
            refine List.Pairwise.map _ ?_ hs
            intro x y hxy
            have h' := (ord_bne_gt_iff _).mp hxy
            rw [hrowsingle x.val x.isLt, hrowsingle y.val y.isLt, lexCmp_single] at h'
            exact le_of_not_lt (fun hlt => h' (Nat.compare_eq_gt.mpr hlt))
          have hrperm : ((((List.finRange
              ((⟨[n], dat⟩ : UArray Nat).rowCount)).mergeSort
              (fun i j => lexCmp (UArray.rowSlice ⟨[n], dat⟩ i.val)
                (UArray.rowSlice ⟨[n], dat⟩ j.val) != Ordering.gt)).map Fin.val).map
              (fun i => dat.getD i 0)).Perm dat := by
            have h1 := List.mergeSort_perm
              (List.finRange ((⟨[n], dat⟩ : UArray Nat).rowCount))
              (fun i j => lexCmp (UArray.rowSlice ⟨[n], dat⟩ i.val)
                (UArray.rowSlice ⟨[n], dat⟩ j.val) != Ordering.gt)
            have h2 := h1.map Fin.val
            rw [List.map_coe_finRange] at h2
            have h3 := h2.map (fun i => dat.getD i 0)
            have h4 : (List.range ((⟨[n], dat⟩ : UArray Nat).rowCount)).map
                (fun i => dat.getD i 0) = dat := by
              have h5 := map_getD_range dat
              rw [show ((⟨[n], dat⟩ : UArray Nat).rowCount) = dat.length from hdlen.symm]
              exact h5
            rwa [h4] at h3
          exact List.eq_of_perm_of_sorted (hlperm.trans hrperm.symm) hlsorted hrsorted
        · have h1 : ¬ (⟨n :: t, dat⟩ : UArray Nat).rank = 1 := by
            unfold UArray.rank
            simp only [List.length_cons]
            have := List.length_pos.mpr ht
            omega
          unfold sortUp
          rw [if_neg hr0, if_neg he, if_neg h1]
          rw [show rise ⟨n :: t, dat⟩ =
            some (((List.finRange ((⟨n :: t, dat⟩ : UArray Nat).rowCount)).mergeSort
              (fun i j => lexCmp (UArray.rowSlice ⟨n :: t, dat⟩ i.val)
                (UArray.rowSlice ⟨n :: t, dat⟩ j.val) != Ordering.gt)).map Fin.val) from by
            unfold rise
            rw [if_neg hr0, if_neg he]]

theorem C9_rise_sort_up_witness :
    ∃ p, rise (⟨[3, 1], [3, 1, 2]⟩ : UArray Nat) = some p ∧
      (0 < (⟨[3, 1], [3, 1, 2]⟩ : UArray Nat).elementCount →
        List.Perm p (List.range (⟨[3, 1], [3, 1, 2]⟩ : UArray Nat).rowCount)) ∧
      (p.map (⟨[3, 1], [3, 1, 2]⟩ : UArray Nat).rowSlice).Pairwise
        (fun r s => lexCmp r s ≠ .gt) ∧
      (∀ i j, i < j → i ∈ p → j ∈ p →
        (⟨[3, 1], [3, 1, 2]⟩ : UArray Nat).rowSlice i =
          (⟨[3, 1], [3, 1, 2]⟩ : UArray Nat).rowSlice j →
        List.Sublist [i, j] p) ∧
      sortUp (⟨[3, 1], [3, 1, 2]⟩ : UArray Nat) =
        some ⟨(⟨[3, 1], [3, 1, 2]⟩ : UArray Nat).shape,
          p.flatMap (⟨[3, 1], [3, 1, 2]⟩ : UArray Nat).rowSlice⟩ :=
  C9_rise_sort_up ⟨[3, 1], [3, 1, 2]⟩ (by decide) (by decide)

end UiuaSpec
